import Mathlib

/-!
# Verification of the Go package resolver

A shallow embedding of `crates/resolver/src/resolver/go.rs` (the Go-ecosystem
resolver of the semifold release manager), together with proofs of the
behavioural properties stated in the specification.

Modelling conventions:

* Strings are Lean `String`s; the parsing internals work over `List Char`
  (the `data` of a `String`) so that everything reduces in the kernel.
* The filesystem is an association list from (normalised) path strings to
  file contents.  `Path::join` is modelled by `pathJoin`, which collapses a
  `"."`/empty component, mirroring how the OS resolves such paths.
* The `git tag --list --sort=-v:refname` subprocess is modelled by a
  `GitState` value: `none` models a failure to invoke the tool, and
  `some (success, stdout)` models a completed invocation.
* The hard-coded regular expressions of the source are translated into
  hand-written matchers.  Each regex used by the source is deterministic
  (every greedy repetition is delimited by a character excluded from the
  repeated class), so maximal-munch scanning without backtracking computes
  exactly the regex's leftmost-first match; `\s` and `\d` are modelled at
  ASCII granularity.
* Rust `Result` becomes `Except`; I/O errors and the unreachable
  `Regex::new` failures of the source are not representable in the model.
-/

/-! ## Character classes (ASCII granularity, mirroring the regex classes) -/

/-- ASCII whitespace, modelling the regex class `\s` and `str::trim`. -/
def isWsC (c : Char) : Bool :=
  c.toNat == 32 || c.toNat == 9 || c.toNat == 10 || c.toNat == 13 ||
  c.toNat == 11 || c.toNat == 12

/-- ASCII digit, modelling the regex class `[\d]`. -/
def isDigitC (c : Char) : Bool :=
  48 ≤ c.toNat && c.toNat ≤ 57

/-- ASCII lowercase letter. -/
def isLowerA (c : Char) : Bool :=
  97 ≤ c.toNat && c.toNat ≤ 122

/-- ASCII uppercase letter. -/
def isUpperA (c : Char) : Bool :=
  65 ≤ c.toNat && c.toNat ≤ 90

/-- The regex class `[a-zA-Z0-9.-]` used for pre-release and build metadata. -/
def isClassC (c : Char) : Bool :=
  isDigitC c || isLowerA c || isUpperA c || c.toNat == 46 || c.toNat == 45

/-- The regex class `[\d.]` of the `go` directive version. -/
def isDigitDotC (c : Char) : Bool :=
  isDigitC c || c.toNat == 46

/-- Case-insensitive character comparison, modelling the `(?i)` regex flag
at ASCII granularity. -/
def ciEq (c d : Char) : Bool :=
  c == d ||
  (isUpperA c && (c.toNat + 32 == d.toNat)) ||
  (isUpperA d && (d.toNat + 32 == c.toNat))

/-! ## List utilities -/

/-- Split a character list at every occurrence of `sep` (the separators are
dropped; `n` separators produce `n+1` groups). -/
def splitOnChar (sep : Char) : List Char → List (List Char)
  | [] => [[]]
  | c :: cs =>
    match splitOnChar sep cs with
    | [] => [[]]
    | g :: gs => if c = sep then [] :: g :: gs else (c :: g) :: gs

/-- Split a character list at the first occurrence of `sep`:
the part before it, and (when `sep` occurs) the part after it. -/
def splitFirst (sep : Char) : List Char → List Char × Option (List Char)
  | [] => ([], none)
  | c :: cs =>
    if c = sep then ([], some cs)
    else
      match splitFirst sep cs with
      | (a, b) => (c :: a, b)

/-- Trim ASCII whitespace from both ends, modelling `str::trim`. -/
def trimL (l : List Char) : List Char :=
  ((l.dropWhile isWsC).reverse.dropWhile isWsC).reverse

/-- Does the (already trimmed) line start with the comment marker `//`? -/
def hasCommentMark : List Char → Bool
  | '/' :: '/' :: _ => true
  | _ => false

/-- Strip one trailing carriage return, as `str::lines` does for `\r\n`. -/
def stripCR (l : List Char) : List Char :=
  match l.getLast? with
  | some '\r' => l.dropLast
  | _ => l

/-- The segments produced by Rust's `str::lines`: split at `'\n'`, drop a
final empty segment (which exists exactly when the text is empty or ends
with a newline), and strip a trailing `'\r'` from each line. -/
def rustLinesL (s : List Char) : List (List Char) :=
  let segs := splitOnChar '\n' s
  let segs := if segs.getLast? = some [] then segs.dropLast else segs
  segs.map stripCR

/-- Repeatedly strip a leading `"./"`, modelling
`str::trim_start_matches("./")`. -/
def trimDotSlashL : List Char → List Char
  | '.' :: '/' :: rest => trimDotSlashL rest
  | s => s

/-- String wrapper for `trimDotSlashL`. -/
def trimDotSlash (s : String) : String :=
  String.mk (trimDotSlashL s.data)

/-- Strip an exact leading occurrence of `pre`, modelling
`str::strip_prefix` (`none` when `pre` does not lead the list). -/
def stripLead : List Char → List Char → Option (List Char)
  | [], s => some s
  | _ :: _, [] => none
  | p :: ps, c :: cs => if c = p then stripLead ps cs else none

/-! ## Deterministic matcher combinators

Each combinator consumes a prefix of the input and returns the consumed
characters together with the remaining input. -/

/-- Match a literal case-insensitively (the `(?i)` flag): the consumed
characters keep their original case. -/
def pLit : List Char → List Char → Option (List Char × List Char)
  | [], s => some ([], s)
  | _ :: _, [] => none
  | l :: ls, c :: cs =>
    if ciEq c l then
      match pLit ls cs with
      | some (a, r) => some (c :: a, r)
      | none => none
    else none

/-- Match one exact character. -/
def pChar (x : Char) : List Char → Option (List Char × List Char)
  | [] => none
  | c :: cs => if c = x then some ([c], cs) else none

/-- Maximal munch of a character class (regex `X*`). -/
def munch (p : Char → Bool) (s : List Char) : List Char × List Char :=
  (s.takeWhile p, s.dropWhile p)

/-- Maximal munch requiring at least one character (regex `X+`). -/
def munch1 (p : Char → Bool) (s : List Char) : Option (List Char × List Char) :=
  match s.takeWhile p with
  | [] => none
  | a => some (a, s.dropWhile p)

/-- Optional group `(?:m X+)?` where `m ∉ X` and the continuation cannot
start with `m`: take the marker and a nonempty class munch, or nothing. -/
def optGroup (m : Char) (p : Char → Bool) (s : List Char) : List Char × List Char :=
  match s with
  | [] => ([], [])
  | c :: cs =>
    if c = m then
      match munch1 p cs with
      | some (a, r) => (c :: a, r)
      | none => ([], s)
    else ([], s)

/-! ## The version.go scanner

The source matches version.go contents against
`(?i)(?:const|var)\s+version\s*=\s*"v?([\d]+\.[\d]+\.[\d]+(?:-[a-zA-Z0-9.-]+)?(?:\+[a-zA-Z0-9.-]+)?)"`
(for extraction; the update regex has the same matched language with the
capture groups placed around the replaced version literal). -/

/-- Match `(?:const|var)` case-insensitively at the head. -/
def matchKeyword (s : List Char) : Option (List Char × List Char) :=
  match pLit ['c', 'o', 'n', 's', 't'] s with
  | some r => some r
  | none => pLit ['v', 'a', 'r'] s

/-- Match `(?i)(?:const|var)\s+version\s*=\s*"` at the head, returning the
consumed span (ending with the opening quote) and the rest. -/
def matchLead (s : List Char) : Option (List Char × List Char) :=
  match matchKeyword s with
  | none => none
  | some (kw, s1) =>
    match munch1 isWsC s1 with
    | none => none
    | some (w1, s2) =>
      match pLit ['v', 'e', 'r', 's', 'i', 'o', 'n'] s2 with
      | none => none
      | some (lit, s3) =>
        match munch isWsC s3 with
        | (w2, s4) =>
          match pChar '=' s4 with
          | none => none
          | some (eq, s5) =>
            match munch isWsC s5 with
            | (w3, s6) =>
              match pChar '"' s6 with
              | none => none
              | some (q, s7) =>
                some (kw ++ w1 ++ lit ++ w2 ++ eq ++ w3 ++ q, s7)

/-- The `v?` of the version pattern (case-insensitive via `(?i)`):
consume a leading `v` when present.  Deterministic: taking the `v` can
never hurt, since the continuation starts with a digit. -/
def skipV (s : List Char) : List Char × List Char :=
  match s with
  | c :: cs => if ciEq c 'v' then ([c], cs) else ([], c :: cs)
  | [] => ([], [])

/-- The numeric part of the version pattern after the optional `v`:
`([\d]+\.[\d]+\.[\d]+(?:-[…]+)?(?:\+[…]+)?)"`, returning the matched span
(`ov` plus the capture), the capture, and the rest after the quote. -/
def matchVerNum (ov s1 : List Char) : Option (List Char × List Char × List Char) :=
  match munch1 isDigitC s1 with
  | none => none
  | some (d1, s2) =>
    match pChar '.' s2 with
    | none => none
    | some (_, s3) =>
      match munch1 isDigitC s3 with
      | none => none
      | some (d2, s4) =>
        match pChar '.' s4 with
        | none => none
        | some (_, s5) =>
          match munch1 isDigitC s5 with
          | none => none
          | some (d3, s6) =>
            match optGroup '-' isClassC s6 with
            | (pr, s7) =>
              match optGroup '+' isClassC s7 with
              | (bl, s8) =>
                match pChar '"' s8 with
                | none => none
                | some (_, s9) =>
                  let cap := d1 ++ '.' :: d2 ++ '.' :: d3 ++ pr ++ bl
                  some (ov ++ cap, cap, s9)

/-- Match `v?([\d]+\.[\d]+\.[\d]+(?:-[…]+)?(?:\+[…]+)?)"` at the head,
returning the matched span before the closing quote, the capture (the span
without the optional leading `v`), and the rest after the closing quote. -/
def matchVer (s : List Char) : Option (List Char × List Char × List Char) :=
  match skipV s with
  | (ov, s1) => matchVerNum ov s1

/-- Try the whole version-assignment pattern at the head of the input:
the lead (`… = "`), then the version literal and closing quote. -/
def matchAt (s : List Char) : Option (List Char × List Char × List Char × List Char) :=
  match matchLead s with
  | none => none
  | some (lead, s1) =>
    match matchVer s1 with
    | none => none
    | some (span, cap, rest) => some (lead, span, cap, rest)

/-- Leftmost match of the version-assignment pattern: scanning position by
position (as the regex engine does), return the prefix before the match,
the lead, the matched version span, the capture, and the suffix after the
closing quote. -/
def findMatch : List Char → Option (List Char × List Char × List Char × List Char × List Char)
  | [] => none
  | c :: cs =>
    match matchAt (c :: cs) with
    | some (lead, span, cap, rest) => some ([], lead, span, cap, rest)
    | none =>
      match findMatch cs with
      | some (pre, lead, span, cap, rest) => some (c :: pre, lead, span, cap, rest)
      | none => none

/-! ## The go.mod parser (`GoResolver::parse_go_mod`) -/

/-- A requirement parsed from a go.mod file (`GoRequire` in the source). -/
structure GoRequire where
  path : String
  version : String
  deriving DecidableEq, Repr

/-- A parsed go.mod file (`GoMod` in the source). -/
structure GoMod where
  module : String
  go_version : Option String
  require : List GoRequire
  deriving DecidableEq, Repr

/-- A parsed go.work file (`GoWork` in the source). -/
structure GoWork where
  go_version : Option String
  use_dirs : List String
  deriving DecidableEq, Repr

/-- The resolver error taxonomy.  Modelled from the spec: the error enum
lives outside the given source file; the spec (section 7) names
`FileOrDirNotFound{path}`, `ParseError{path, reason}` and a
version-format error propagated from the semantic-version primitive. -/
inductive ResolveError where
  | fileOrDirNotFound (path : String)
  | parseError (path : String) (reason : String)
  | versionFormatError (input : String)
  deriving DecidableEq, Repr

instance instDecEqExcept {ε α : Type} [DecidableEq ε] [DecidableEq α] :
    DecidableEq (Except ε α)
  | .error e, .error f =>
    if h : e = f then isTrue (by rw [h]) else isFalse fun hh => h (Except.error.inj hh)
  | .error _, .ok _ => isFalse fun h => Except.noConfusion h
  | .ok _, .error _ => isFalse fun h => Except.noConfusion h
  | .ok x, .ok y =>
    if h : x = y then isTrue (by rw [h]) else isFalse fun hh => h (Except.ok.inj hh)

/-- Match `^module\s+(.+)$` against a trimmed line, returning the capture.
The backtracking of `\s+` against the greedy `(.+)` matters only for
inputs ending in whitespace, which a trimmed line never does. -/
def matchModule : List Char → Option (List Char)
  | 'm' :: 'o' :: 'd' :: 'u' :: 'l' :: 'e' :: c :: rest =>
    if isWsC c then
      match (c :: rest).dropWhile isWsC with
      | [] => some [(c :: rest).getLastD c]
      | cap => some cap
    else none
  | _ => none

/-- Match `^go\s+([\d.]+)` against a trimmed line, returning the capture. -/
def matchGo : List Char → Option (List Char)
  | 'g' :: 'o' :: c :: rest =>
    if isWsC c then
      match ((c :: rest).dropWhile isWsC).takeWhile isDigitDotC with
      | [] => none
      | cap => some cap
    else none
  | _ => none

/-- Match `^\s*(\S+)\s+(\S+)`: the first two whitespace-separated tokens,
requiring at least one whitespace character between them. -/
def twoTokens (l : List Char) : Option (List Char × List Char) :=
  let r1 := l.dropWhile isWsC
  match r1.takeWhile (fun c => !isWsC c) with
  | [] => none
  | t1 =>
    let r2 := r1.dropWhile (fun c => !isWsC c)
    match (r2.dropWhile isWsC).takeWhile (fun c => !isWsC c) with
    | [] => none
    | t2 => if r2 = [] then none else some (t1, t2)

/-- Match `^require\s+(\S+)\s+(\S+)` against a trimmed line. -/
def matchRequireSingle : List Char → Option (List Char × List Char)
  | 'r' :: 'e' :: 'q' :: 'u' :: 'i' :: 'r' :: 'e' :: c :: rest =>
    if isWsC c then twoTokens (c :: rest) else none
  | _ => none

/-- Match `^use\s+(\S+)` against a trimmed line. -/
def matchUseSingle : List Char → Option (List Char)
  | 'u' :: 's' :: 'e' :: c :: rest =>
    if isWsC c then
      match ((c :: rest).dropWhile isWsC).takeWhile (fun x => !isWsC x) with
      | [] => none
      | t => some t
    else none
  | _ => none

/-- The parser state of the `parse_go_mod` line loop. -/
structure GoModSt where
  module : List Char
  go_version : Option (List Char)
  require : List (List Char × List Char)
  in_require_block : Bool
  deriving DecidableEq, Repr

/-- The initial state of the `parse_go_mod` line loop. -/
def goModInit : GoModSt :=
  { module := [], go_version := none, require := [], in_require_block := false }

/-- One iteration of the `parse_go_mod` line loop, in the source's order:
trim; skip blank and comment lines; `module`; `go`; `require (`; `)`;
single-line `require`; block entries (skipping paths that are comment
markers). -/
def goModStep (st : GoModSt) (rawLine : List Char) : GoModSt :=
  let line := trimL rawLine
  if line.isEmpty || hasCommentMark line then st
  else
    match matchModule line with
    | some m => { st with module := m }
    | none =>
      match matchGo line with
      | some g => { st with go_version := some g }
      | none =>
        if line = ['r', 'e', 'q', 'u', 'i', 'r', 'e', ' ', '('] then
          { st with in_require_block := true }
        else if line = [')'] && st.in_require_block then
          { st with in_require_block := false }
        else
          match matchRequireSingle line with
          | some (p, v) => { st with require := st.require ++ [(p, v)] }
          | none =>
            if st.in_require_block then
              match twoTokens line with
              | some (p, v) =>
                if hasCommentMark p then st
                else { st with require := st.require ++ [(p, v)] }
              | none => st
            else st

/-- Run the `parse_go_mod` line loop over a list of lines and apply the
end-of-parse check for the module directive. -/
def goModLinesParse (lines : List (List Char)) (path : String) : Except ResolveError GoMod :=
  let st := lines.foldl goModStep goModInit
  if st.module.isEmpty then
    .error (.parseError path "module directive not found in go.mod")
  else
    .ok { module := String.mk st.module,
          go_version := st.go_version.map String.mk,
          require := st.require.map fun pv => ⟨String.mk pv.1, String.mk pv.2⟩ }

/-- `GoResolver::parse_go_mod`. -/
def parse_go_mod (content : String) (path : String) : Except ResolveError GoMod :=
  goModLinesParse (rustLinesL content.data) path

/-- The parser state of the `parse_go_work` line loop. -/
structure GoWorkSt where
  go_version : Option (List Char)
  use_dirs : List (List Char)
  in_use_block : Bool
  deriving DecidableEq, Repr

/-- The initial state of the `parse_go_work` line loop. -/
def goWorkInit : GoWorkSt :=
  { go_version := none, use_dirs := [], in_use_block := false }

/-- One iteration of the `parse_go_work` line loop, in the source's order:
trim; skip blank and comment lines; `go`; `use (`; `)`; single-line `use`;
block entries (skipping `)` and comment markers). -/
def goWorkStep (st : GoWorkSt) (rawLine : List Char) : GoWorkSt :=
  let line := trimL rawLine
  if line.isEmpty || hasCommentMark line then st
  else
    match matchGo line with
    | some g => { st with go_version := some g }
    | none =>
      if line = ['u', 's', 'e', ' ', '('] then
        { st with in_use_block := true }
      else if line = [')'] && st.in_use_block then
        { st with in_use_block := false }
      else
        match matchUseSingle line with
        | some d => { st with use_dirs := st.use_dirs ++ [d] }
        | none =>
          if st.in_use_block then
            match (line.dropWhile isWsC).takeWhile (fun c => !isWsC c) with
            | [] => st
            | dir =>
              if dir = [')'] || hasCommentMark dir then st
              else { st with use_dirs := st.use_dirs ++ [dir] }
          else st

/-- `GoResolver::parse_go_work` (it never fails: its only error paths are
the unrepresentable `Regex::new` failures). -/
def parse_go_work (content : String) : GoWork :=
  let st := (rustLinesL content.data).foldl goWorkStep goWorkInit
  { go_version := st.go_version.map String.mk,
    use_dirs := st.use_dirs.map String.mk }

/-! ## The semantic-version primitive

Modelled from the spec: version parsing and comparison are delegated to "a
standard semantic-versioning primitive" (the external `semver` crate);
only as much of it as resolution needs is modelled here. -/

/-- A semantic version (the external `semver::Version`). -/
structure SemVer where
  major : Nat
  minor : Nat
  patch : Nat
  pre : String
  build : String
  deriving DecidableEq, Repr

/-- Digit-list to number. -/
def digitsToNat (l : List Char) : Nat :=
  l.foldl (fun n c => n * 10 + (c.toNat - 48)) 0

/-- Modelled from the spec: a strict numeric component of the external
semantic-versioning primitive (nonempty, all digits, no leading zero). -/
def parseNumStrict (l : List Char) : Option Nat :=
  if l.isEmpty then none
  else if !l.all isDigitC then none
  else
    match l with
    | '0' :: _ :: _ => none
    | _ => some (digitsToNat l)

/-- A character allowed in a semver pre-release or build identifier. -/
def isIdentC (c : Char) : Bool :=
  isDigitC c || isLowerA c || isUpperA c || c.toNat == 45

/-- Modelled from the spec: one dot-separated identifier of pre-release or
build metadata (nonempty, alphanumeric-or-hyphen; a numeric pre-release
identifier must not have a leading zero). -/
def identOk (strictNum : Bool) (l : List Char) : Bool :=
  !l.isEmpty && l.all isIdentC &&
  (!strictNum || !l.all isDigitC ||
    (match l with
     | '0' :: _ :: _ => false
     | _ => true))

/-- Modelled from the spec: dot-separated identifier list validation. -/
def identsOk (strictNum : Bool) (l : List Char) : Bool :=
  (splitOnChar '.' l).all (identOk strictNum)

/-- Modelled from the spec: the external semantic-versioning primitive's
parser (`semver::Version::parse`), restricted to acceptance and the
numeric triple, which is all the resolver uses. -/
def semverParse (s : String) : Option SemVer :=
  let (core, bld) := splitFirst '+' s.data
  let (nums, pre) := splitFirst '-' core
  match splitOnChar '.' nums with
  | [a, b, c] =>
    match parseNumStrict a, parseNumStrict b, parseNumStrict c with
    | some M, some m, some p =>
      let preOk := match pre with | none => true | some l => identsOk true l
      let bldOk := match bld with | none => true | some l => identsOk false l
      if preOk && bldOk then
        some { major := M, minor := m, patch := p,
               pre := String.mk (pre.getD []), build := String.mk (bld.getD []) }
      else none
    | _, _, _ => none
  | _ => none

/-- Modelled from the spec: `semver::Version`'s display form, used by
`bump` via `version.to_string()`. -/
def semverToString (v : SemVer) : String :=
  toString v.major ++ "." ++ toString v.minor ++ "." ++ toString v.patch ++
  (if v.pre = "" then "" else "-" ++ v.pre) ++
  (if v.build = "" then "" else "+" ++ v.build)

/-! ## Git tag lookup (`GoResolver::extract_version_from_git_tag`) -/

/-- The outcome of invoking `git tag --list --sort=-v:refname`:
`none` models `Command::output()` returning `Err`, and
`some (success, stdout)` a completed invocation with its exit status
and captured standard output. -/
abbrev GitState := Option (Bool × String)

/-- Tail of the anchored tag regex after the patch digits:
`(?:-[a-zA-Z0-9.-]+)?(?:\+[a-zA-Z0-9.-]+)?$` starting at the `+` part. -/
def plusTailOk : List Char → Bool
  | [] => true
  | '+' :: rest => !rest.isEmpty && rest.all isClassC
  | _ => false

/-- Tail of the anchored tag regex after the patch digits. -/
def dashPlusTailOk : List Char → Bool
  | '-' :: rest =>
    match rest.takeWhile isClassC with
    | [] => false
    | _ => plusTailOk (rest.dropWhile isClassC)
  | s => plusTailOk s

/-- Full anchored match of
`[\d]+\.[\d]+\.[\d]+(?:-[a-zA-Z0-9.-]+)?(?:\+[a-zA-Z0-9.-]+)?$`. -/
def semverFullL (t : List Char) : Bool :=
  match t.takeWhile isDigitC with
  | [] => false
  | _ =>
    match t.dropWhile isDigitC with
    | '.' :: r2 =>
      match r2.takeWhile isDigitC with
      | [] => false
      | _ =>
        match r2.dropWhile isDigitC with
        | '.' :: r3 =>
          match r3.takeWhile isDigitC with
          | [] => false
          | _ => dashPlusTailOk (r3.dropWhile isDigitC)
        | _ => false
    | _ => false

/-- Match a whole (trimmed) tag against `^v?([\d]+\.[\d]+\.[\d]+…)$`
(case-sensitive, unlike the version.go pattern), returning the capture. -/
def tagVersion (t : List Char) : Option (List Char) :=
  let t' := match t with
            | 'v' :: rest => rest
            | _ => t
  if semverFullL t' then some t' else none

/-- The tag loop of `extract_version_from_git_tag`: for each trimmed tag,
first try stripping the `{module_path}/` sub-module form, then try the
bare root form; the first tag that matches wins. -/
def scanTags (modulePath : String) : List (List Char) → Option (List Char)
  | [] => none
  | l :: rest =>
    let tag := trimL l
    match stripLead (modulePath.data ++ ['/']) tag with
    | some stripped =>
      match tagVersion stripped with
      | some cap => some cap
      | none =>
        match tagVersion tag with
        | some cap => some cap
        | none => scanTags modulePath rest
    | none =>
      match tagVersion tag with
      | some cap => some cap
      | none => scanTags modulePath rest

/-- `GoResolver::extract_version_from_git_tag`: a failed invocation or a
non-success exit status yields `none`; otherwise scan the stdout lines.
In the source the function returns `Result<Option<String>, _>` but its
only error path is the unrepresentable `Regex::new` failure. -/
def extract_version_from_git_tag (git : GitState) (modulePath : String) : Option String :=
  match git with
  | none => none
  | some (success, out) =>
    if success then (scanTags modulePath (rustLinesL out.data)).map String.mk
    else none

/-! ## Filesystem model and the version.go reader/writer -/

/-- The filesystem: an association list from normalised path strings to
file contents.  A path is present exactly when the file exists. -/
abbrev Fs := List (String × String)

/-- Read a file (`Path::exists` plus `fs::read_to_string`). -/
def fsRead : Fs → String → Option String
  | [], _ => none
  | e :: rest, p => if e.1 = p then some e.2 else fsRead rest p

/-- Write a file (`fs::write`): overwrite in place or append a new entry. -/
def fsWrite : Fs → String → String → Fs
  | [], p, c => [(p, c)]
  | e :: rest, p, c => if e.1 = p then (p, c) :: rest else e :: fsWrite rest p c

/-- `Path::join`, on normalised path strings: joining `"."` or `""`
yields the base path itself (as the OS resolves `base/.`). -/
def pathJoin (a b : String) : String :=
  if b = "." ∨ b = "" then a else a ++ "/" ++ b

/-- `GoResolver::extract_version_from_version_go`: `none` when the file
does not exist or no assignment matches; otherwise the first match's
capture.  The source's error paths (I/O, `Regex::new`) are not
representable in the model. -/
def extract_version_from_version_go (fs : Fs) (packagePath : String) : Option String :=
  match fsRead fs (pathJoin packagePath "version.go") with
  | none => none
  | some content =>
    match findMatch content.data with
    | some (_, _, _, cap, _) => some (String.mk cap)
    | none => none

/-- The boilerplate `update_version_go` writes when version.go is absent. -/
def versionGoBoilerplate (newVersion : String) : String :=
  "package main\n\n// Version is the current version of the module.\nconst Version = \"" ++
  newVersion ++ "\"\n"

/-- `GoResolver::update_version_go`: create the file with boilerplate when
absent; otherwise replace the first regex match (`Regex::replace`),
keeping the lead (`caps[1]`, up to and including the opening quote) and
the closing quote (`caps[2]`), and dropping the optional `v` with the old
literal.  When nothing matches, `replace` returns the input unchanged and
the same bytes are written back. -/
def update_version_go (fs : Fs) (packagePath : String) (newVersion : String) : Fs :=
  match fsRead fs (pathJoin packagePath "version.go") with
  | none =>
    fsWrite fs (pathJoin packagePath "version.go") (versionGoBoilerplate newVersion)
  | some content =>
    match findMatch content.data with
    | some (pre, lead, _, _, rest) =>
      fsWrite fs (pathJoin packagePath "version.go")
        (String.mk (pre ++ lead ++ newVersion.data ++ '"' :: rest))
    | none => fsWrite fs (pathJoin packagePath "version.go") content

/-- `GoResolver::get_version`: version.go first, then the git tags, then
the default `"0.0.0"`.  The source's error type is kept even though the
modelled chain cannot fail. -/
def get_version (fs : Fs) (git : GitState) (root packagePath modulePath : String) :
    Except ResolveError String :=
  match extract_version_from_version_go fs (pathJoin root packagePath) with
  | some v => .ok v
  | none =>
    match extract_version_from_git_tag git modulePath with
    | some v => .ok v
    | none => .ok "0.0.0"

/-- `GoResolver::module_name_from_path`: the last `/`-separated segment. -/
def module_name_from_path (modulePath : String) : String :=
  String.mk ((splitOnChar '/' modulePath.data).getLastD modulePath.data)

/-! ## Resolver configuration types

Modelled from the spec: `PackageConfig`, `ResolverConfig`, `Command` and
the execution `Context` are owned by external collaborators (section 3 and
section 6 of the spec); only the fields this resolver consumes appear. -/

/-- Modelled from the spec: the resolver kind tag of a `PackageConfig`;
the Go resolver only distinguishes its own kind from every other. -/
inductive ResolverType where
  | go
  | other
  deriving DecidableEq, Repr

/-- Modelled from the spec: the version mode of a `PackageConfig`. -/
inductive VersionMode where
  | semantic
  | other
  deriving DecidableEq, Repr

/-- Modelled from the spec: a package entry of the release configuration. -/
structure PackageConfig where
  path : String
  resolver : ResolverType
  version_mode : VersionMode
  assets : List String
  deriving DecidableEq, Repr

/-- `ResolvedPackage`, as produced by `resolve`. -/
structure ResolvedPackage where
  name : String
  version : SemVer
  path : String
  private_ : Bool
  deriving DecidableEq, Repr

/-- Modelled from the spec: one configured prepublish/publish command. -/
structure CommandCfg where
  command : String
  args : Option (List String)
  dry_run : Option Bool
  deriving DecidableEq, Repr

/-- Modelled from the spec: the per-resolver command configuration. -/
structure ResolverConfig where
  prepublish : List CommandCfg
  publish : List CommandCfg
  deriving DecidableEq, Repr

/-- Modelled from the spec: the execution context; only `dry_run` is
consumed by this resolver. -/
structure Context where
  dry_run : Bool
  deriving DecidableEq, Repr

/-! ## The `Resolver` operations -/

/-- `GoResolver::resolve`: locate and parse `go.mod`, resolve the version
through `get_version`, parse it as a semantic version, and derive the
package name from the module identity.  `private` is always `false`. -/
def resolve (fs : Fs) (git : GitState) (root : String) (pkg_config : PackageConfig) :
    Except ResolveError ResolvedPackage :=
  let go_mod_path := pathJoin (pathJoin root pkg_config.path) "go.mod"
  match fsRead fs go_mod_path with
  | none => .error (.fileOrDirNotFound go_mod_path)
  | some content =>
    match parse_go_mod content go_mod_path with
    | .error e => .error e
    | .ok go_mod =>
      match get_version fs git root pkg_config.path go_mod.module with
      | .error e => .error e
      | .ok version_str =>
        match semverParse version_str with
        | none => .error (.versionFormatError version_str)
        | some version =>
          .ok { name := module_name_from_path go_mod.module,
                version := version,
                path := pkg_config.path,
                private_ := false }

/-- The `PackageConfig` that `resolve_all` synthesises for a member path. -/
def goMemberConfig (path : String) : PackageConfig :=
  { path := path, resolver := .go, version_mode := .semantic, assets := [] }

/-- `GoResolver::resolve_all`: expand a `go.work` workspace when present
(`"."` maps to the root, a leading `"./"` is stripped), else resolve the
single root `go.mod`, else succeed with the empty list. -/
def resolve_all (fs : Fs) (git : GitState) (root : String) :
    Except ResolveError (List ResolvedPackage) :=
  match fsRead fs (pathJoin root "go.work") with
  | some work_content =>
    let go_work := parse_go_work work_content
    go_work.use_dirs.mapM fun dir =>
      let rel_path := if dir = "." then "." else trimDotSlash dir
      resolve fs git root (goMemberConfig rel_path)
  | none =>
    match fsRead fs (pathJoin root "go.mod") with
    | none => .ok []
    | some _ =>
      match resolve fs git root (goMemberConfig ".") with
      | .error e => .error e
      | .ok package => .ok [package]

/-- `GoResolver::bump`: under dry-run, return successfully without
touching the filesystem; otherwise rewrite version.go. -/
def bump (ctx : Context) (fs : Fs) (root : String) (package : ResolvedPackage)
    (version : SemVer) : Except ResolveError Fs :=
  let bumped_version := semverToString version
  let package_path := pathJoin root package.path
  if ctx.dry_run then .ok fs
  else .ok (update_version_go fs package_path bumped_version)

/-- Insert-or-overwrite into an association list (`HashMap::insert`). -/
def assocInsert (k : String) (v : GoMod) : List (String × GoMod) → List (String × GoMod)
  | [] => [(k, v)]
  | e :: rest => if e.1 = k then (k, v) :: rest else e :: assocInsert k v rest

/-- Association-list lookup (`HashMap::get`).  The source's `HashMap` has
unspecified iteration order; the model keeps insertion order, which agrees
whenever the keys are distinct. -/
def assocGet (k : String) : List (String × GoMod) → Option GoMod
  | [] => none
  | e :: rest => if e.1 = k then some e.2 else assocGet k rest

/-- Association-list lookup for the module-to-name map. -/
def assocGetS (k : String) : List (String × String) → Option String
  | [] => none
  | e :: rest => if e.1 = k then some e.2 else assocGetS k rest

/-- The `try_fold` of `sort_packages`: parse the go.mod of every
Go-resolver entry into a name-keyed map (`acc`), failing on the first
read or parse error.  A missing go.mod surfaces as the wrapped I/O error
of the read (modelled as a `parseError`, the spec's uniform wrapper). -/
def buildCache (fs : Fs) (root : String) (acc : List (String × GoMod)) :
    List (String × PackageConfig) → Except ResolveError (List (String × GoMod))
  | [] => .ok acc
  | (name, cfg) :: rest =>
    let go_mod_path := pathJoin (pathJoin root cfg.path) "go.mod"
    match fsRead fs go_mod_path with
    | none => .error (.parseError go_mod_path "io error")
    | some content =>
      match parse_go_mod content go_mod_path with
      | .error e => .error e
      | .ok gm => buildCache fs root (assocInsert name gm acc) rest

/-- A placeholder for the source's `cached_packages.get(..).unwrap()`,
which cannot panic because the comparator consults the cache only for
Go-resolver entries, all of which were inserted. -/
def goModDummy : GoMod := { module := "", go_version := none, require := [] }

/-- The comparator of `sort_packages`: for two Go entries, an entry sorts
after every entry it requires (via the module-to-name map); any other
pair compares equal. -/
def goCmp (cache : List (String × GoMod)) (module_to_name : List (String × String))
    (a b : String × PackageConfig) : Ordering :=
  if a.2.resolver = ResolverType.go ∧ b.2.resolver = ResolverType.go then
    let a_mod := (assocGet a.1 cache).getD goModDummy
    let b_mod := (assocGet b.1 cache).getD goModDummy
    let a_depends_on_b := a_mod.require.any fun req =>
      match assocGetS req.path module_to_name with
      | some dep_name => dep_name = b.1
      | none => false
    let b_depends_on_a := b_mod.require.any fun req =>
      match assocGetS req.path module_to_name with
      | some dep_name => dep_name = a.1
      | none => false
    if a_depends_on_b then .gt
    else if b_depends_on_a then .lt
    else .eq
  else .eq

/-- Stable insertion with a three-way comparator: an element moves past
its neighbour only on `Ordering.gt`, exactly when `Vec::sort_by` would
place it after. -/
def insertOrd (cmp : α → α → Ordering) (x : α) : List α → List α
  | [] => [x]
  | y :: ys => if cmp x y = .gt then y :: insertOrd cmp x ys else x :: y :: ys

/-- Stable comparator sort modelling `Vec::sort_by`.  Rust's sort is a
stable merge sort; any two stable sorts agree whenever the comparator is
consistent, and in particular on the two-element inputs considered here. -/
def sortByOrd (cmp : α → α → Ordering) : List α → List α
  | [] => []
  | x :: xs => insertOrd cmp x (sortByOrd cmp xs)

/-- `GoResolver::sort_packages`: cache the parsed manifests of the Go
entries, build the module-identity-to-name map, and sort with `goCmp`
(the caller's vector is mutated in place; the model returns it). -/
def sort_packages (fs : Fs) (root : String) (packages : List (String × PackageConfig)) :
    Except ResolveError (List (String × PackageConfig)) :=
  match buildCache fs root [] (packages.filter fun e => e.2.resolver = ResolverType.go) with
  | .error e => .error e
  | .ok cache =>
    let module_to_name := cache.map fun e => (e.2.module, e.1)
    .ok (sortByOrd (goCmp cache module_to_name) packages)

/-- One command list of `publish` (`utils::run_command` is the external
command-execution collaborator, passed as a function).  Returns the final
outcome and the commands actually executed, in order: a command is
skipped under dry-run unless its own override is explicitly `true`, and a
failure aborts the rest of the list. -/
def runCmdList (runCmd : CommandCfg → String → Except ResolveError Unit)
    (dryRun : Bool) (path : String) :
    List CommandCfg → Except ResolveError Unit × List CommandCfg
  | [] => (.ok (), [])
  | c :: rest =>
    if dryRun && !(c.dry_run.getD false) then
      runCmdList runCmd dryRun path rest
    else
      match runCmd c path with
      | .ok () =>
        match runCmdList runCmd dryRun path rest with
        | (r, ex) => (r, c :: ex)
      | .error e => (.error e, [c])

/-- `GoResolver::publish`: run the prepublish list, then (when it
succeeded) the publish list, in the package's directory. -/
def publish (runCmd : CommandCfg → String → Except ResolveError Unit)
    (package : ResolvedPackage) (resolver_config : ResolverConfig) (dryRun : Bool) :
    Except ResolveError Unit × List CommandCfg :=
  match runCmdList runCmd dryRun package.path resolver_config.prepublish with
  | (.error e, ex1) => (.error e, ex1)
  | (.ok (), ex1) =>
    match runCmdList runCmd dryRun package.path resolver_config.publish with
    | (r2, ex2) => (r2, ex1 ++ ex2)

/-- A prefix none of whose positions can start a version-assignment match:
every position either has a first character that is not a candidate
keyword head, or a first pair that continues neither `const` nor `var`
(the last character is only safe when it alone rules the keyword out). -/
def safeScanList : List Char → Bool
  | [] => true
  | [c] => !(ciEq c 'c' || ciEq c 'v')
  | c :: d :: rest =>
    !(ciEq c 'c' && ciEq d 'o') && !(ciEq c 'v' && ciEq d 'a') &&
    safeScanList (d :: rest)

/-- The module capture a single line contributes: the line's trimmed text,
when it is neither blank nor comment-marked and matches the `module`
directive pattern. -/
def moduleLineValue (l : List Char) : Option (List Char) :=
  let line := trimL l
  if line.isEmpty || hasCommentMark line then none
  else matchModule line

/-- Last-write-wins accumulation of module captures over the lines. -/
def moduleAccStep (acc : Option (List Char)) (l : List Char) : Option (List Char) :=
  match moduleLineValue l with
  | some m => some m
  | none => acc

/-- The last module capture declared across a list of lines. -/
def lastModuleCapture (lines : List (List Char)) : Option (List Char) :=
  lines.foldl moduleAccStep none

/-- The continuation cannot extend the munch: empty or head out of class. -/
def stopsAt (p : Char → Bool) (b : List Char) : Prop :=
  ∀ x xs, b = x :: xs → p x = false

/-- The shape hypothesis of an optional group: absent, or the marker
followed by a nonempty run of class characters. -/
def optShape (m : Char) (p : Char → Bool) (g : List Char) : Prop :=
  g = [] ∨ ∃ t, g = m :: t ∧ t ≠ [] ∧ ∀ x ∈ t, p x = true

/-- Rejoin the groups of `splitOnChar` with the separator. -/
def joinSep (sep : Char) : List (List Char) → List Char
  | [] => []
  | [g] => g
  | g :: gs => g ++ sep :: joinSep sep gs

/-- The fixed part of the boilerplate before the version assignment. -/
def boilerHead : List Char :=
  ("package main\n\n// Version is the current version of the module.\n").data

/-- The version-assignment lead of the boilerplate, ending at the opening
quote. -/
def boilerLead : List Char := ("const Version = \"").data

/-! ## Helper lemmas: characters -/

theorem toNat_eq_char (c : Char) (n : Nat) (h : c.toNat = n) : c = Char.ofNat n := by
  subst h
  exact (Char.ofNat_toNat c).symm

theorem ciEq_c_iff (c : Char) : ciEq c 'c' = true ↔ c = 'c' ∨ c = 'C' := by
  constructor
  · intro h
    simp only [ciEq, isUpperA, Bool.or_eq_true, Bool.and_eq_true, beq_iff_eq,
      decide_eq_true_eq] at h
    have h99 : ('c' : Char).toNat = 99 := by decide
    rcases h with (h | h) | h
    · exact Or.inl h
    · right
      rw [h99] at h
      have h67 : c.toNat = 67 := by omega
      have := toNat_eq_char c 67 h67
      simpa using this
    · exfalso
      rw [h99] at h
      omega
  · rintro (rfl | rfl) <;> decide

theorem ciEq_v_iff (c : Char) : ciEq c 'v' = true ↔ c = 'v' ∨ c = 'V' := by
  constructor
  · intro h
    simp only [ciEq, isUpperA, Bool.or_eq_true, Bool.and_eq_true, beq_iff_eq,
      decide_eq_true_eq] at h
    have h118 : ('v' : Char).toNat = 118 := by decide
    rcases h with (h | h) | h
    · exact Or.inl h
    · right
      rw [h118] at h
      have h86 : c.toNat = 86 := by omega
      have := toNat_eq_char c 86 h86
      simpa using this
    · exfalso
      rw [h118] at h
      omega
  · rintro (rfl | rfl) <;> decide

theorem isDigitC_not_ciEq_v (c : Char) (h : isDigitC c = true) : ciEq c 'v' = false := by
  rcases hv : ciEq c 'v' with _ | _
  · rfl
  · exfalso
    rcases (ciEq_v_iff c).1 hv with rfl | rfl <;> simp [isDigitC] at h

/-! ## Helper lemmas: maximal munch -/

theorem stopsAt_nil (p : Char → Bool) : stopsAt p [] := by
  intro x xs h
  cases h

theorem stopsAt_cons (p : Char → Bool) (x : Char) (xs : List Char) (h : p x = false) :
    stopsAt p (x :: xs) := by
  intro y ys hy
  cases hy
  exact h

theorem takeWhile_of_stops (p : Char → Bool) (a b : List Char)
    (ha : ∀ c ∈ a, p c = true) (hb : stopsAt p b) :
    (a ++ b).takeWhile p = a ∧ (a ++ b).dropWhile p = b := by
  induction a with
  | nil =>
    cases b with
    | nil => exact ⟨rfl, rfl⟩
    | cons x xs =>
      have hx := hb x xs rfl
      simp [List.takeWhile, List.dropWhile, hx]
  | cons c cs ih =>
    have hc : p c = true := ha c (by simp)
    have := ih (fun d hd => ha d (by simp [hd]))
    simp [List.takeWhile, List.dropWhile, hc, this.1, this.2]

theorem mem_takeWhile_p (p : Char → Bool) (s : List Char) :
    ∀ c ∈ s.takeWhile p, p c = true := by
  induction s with
  | nil => intro c h; cases h
  | cons x xs ih =>
    intro c h
    cases hx : p x with
    | true =>
      simp only [List.takeWhile, hx] at h
      rcases h with _ | h
      · exact hx
      · exact ih c (by assumption)
    | false =>
      simp only [List.takeWhile, hx] at h
      cases h

theorem stopsAt_dropWhile (p : Char → Bool) (s : List Char) :
    stopsAt p (s.dropWhile p) := by
  induction s with
  | nil => exact stopsAt_nil p
  | cons x xs ih =>
    cases hx : p x with
    | true => simpa [List.dropWhile, hx] using ih
    | false => simpa [List.dropWhile, hx] using stopsAt_cons p x xs hx

theorem takeWhile_append_dropWhile_eq (p : Char → Bool) (s : List Char) :
    s.takeWhile p ++ s.dropWhile p = s := by
  induction s with
  | nil => rfl
  | cons x xs ih =>
    cases hx : p x with
    | true => simp [List.takeWhile, List.dropWhile, hx, ih]
    | false => simp [List.takeWhile, List.dropWhile, hx]

theorem munch1_some_inv (p : Char → Bool) (s a r : List Char)
    (h : munch1 p s = some (a, r)) :
    s = a ++ r ∧ a ≠ [] ∧ (∀ c ∈ a, p c = true) ∧ stopsAt p r := by
  unfold munch1 at h
  rcases htw : s.takeWhile p with _ | ⟨x, xs⟩
  · rw [htw] at h
    cases h
  · rw [htw] at h
    cases h
    refine ⟨?_, by simp, ?_, stopsAt_dropWhile p s⟩
    · rw [← htw]
      exact (takeWhile_append_dropWhile_eq p s).symm
    · intro c hc
      exact mem_takeWhile_p p s c (htw ▸ hc)

theorem munch1_reparse (p : Char → Bool) (a b : List Char)
    (ha : ∀ c ∈ a, p c = true) (hne : a ≠ []) (hb : stopsAt p b) :
    munch1 p (a ++ b) = some (a, b) := by
  have h := takeWhile_of_stops p a b ha hb
  unfold munch1
  rw [h.1, h.2]
  cases a with
  | nil => exact absurd rfl hne
  | cons x xs => rfl

theorem munch_reparse (p : Char → Bool) (a b : List Char)
    (ha : ∀ c ∈ a, p c = true) (hb : stopsAt p b) :
    munch p (a ++ b) = (a, b) := by
  have h := takeWhile_of_stops p a b ha hb
  unfold munch
  rw [h.1, h.2]

theorem munch_inv (p : Char → Bool) (s a r : List Char)
    (h : munch p s = (a, r)) :
    s = a ++ r ∧ (∀ c ∈ a, p c = true) ∧ stopsAt p r := by
  unfold munch at h
  cases h
  exact ⟨(takeWhile_append_dropWhile_eq p s).symm,
    mem_takeWhile_p p s, stopsAt_dropWhile p s⟩

/-! ## Helper lemmas: literal and single-character matchers -/

theorem pLit_some_inv (lit : List Char) :
    ∀ s a r, pLit lit s = some (a, r) →
      s = a ++ r ∧ (∀ c ∈ a, ∃ l ∈ lit, ciEq c l = true) ∧
      (∀ z, pLit lit (a ++ z) = some (a, z)) ∧ a.length = lit.length := by
  induction lit with
  | nil =>
    intro s a r h
    have h' : some (([] : List Char), s) = some (a, r) := h
    injection h' with h'
    injection h' with ha hr
    subst ha
    subst hr
    refine ⟨rfl, ?_, ?_, rfl⟩
    · intro c hc
      cases hc
    · intro z
      rfl
  | cons l ls ih =>
    intro s a r h
    cases s with
    | nil =>
      have h' : (none : Option (List Char × List Char)) = some (a, r) := h
      cases h'
    | cons c cs =>
      simp only [pLit] at h
      by_cases hci : ciEq c l = true
      · rw [if_pos hci] at h
        rcases hrec : pLit ls cs with _ | ⟨a1, r1⟩
        · rw [hrec] at h
          cases h
        · rw [hrec] at h
          have h' : some ((c :: a1, r1) : List Char × List Char) = some (a, r) := h
          injection h' with h'
          injection h' with ha hr
          subst ha
          subst hr
          obtain ⟨hs, hmem, hrep, hlen⟩ := ih cs a1 r1 hrec
          refine ⟨by simp [hs], ?_, ?_, by simp [hlen]⟩
          · intro d hd
            rcases hd with _ | hd
            · exact ⟨l, by simp, hci⟩
            · obtain ⟨l2, hl2, hcil2⟩ := hmem d (by assumption)
              exact ⟨l2, by simp [hl2], hcil2⟩
          · intro z
            show pLit (l :: ls) (c :: (a1 ++ z)) = some (c :: a1, z)
            simp only [pLit]
            rw [if_pos hci, hrep z]
      · rw [if_neg hci] at h
        cases h

theorem pChar_some_inv (x : Char) (s a r : List Char) (h : pChar x s = some (a, r)) :
    s = x :: r ∧ a = [x] := by
  cases s with
  | nil =>
    have h' : (none : Option (List Char × List Char)) = some (a, r) := h
    cases h'
  | cons c cs =>
    simp only [pChar] at h
    by_cases hc : c = x
    · rw [if_pos hc] at h
      have h' : some (([c] : List Char), cs) = some (a, r) := h
      injection h' with h'
      injection h' with ha hr
      subst ha
      subst hr
      exact ⟨by rw [hc], by rw [hc]⟩
    · rw [if_neg hc] at h
      cases h

theorem pChar_self (x : Char) (z : List Char) : pChar x (x :: z) = some ([x], z) := by
  simp [pChar]

theorem pLit_head (l : Char) (ls s a r : List Char) (h : pLit (l :: ls) s = some (a, r)) :
    ∃ c a1, a = c :: a1 ∧ ciEq c l = true := by
  cases s with
  | nil =>
    have h' : (none : Option (List Char × List Char)) = some (a, r) := h
    cases h'
  | cons c cs =>
    simp only [pLit] at h
    by_cases hci : ciEq c l = true
    · rw [if_pos hci] at h
      rcases hrec : pLit ls cs with _ | ⟨a1, r1⟩
      · rw [hrec] at h
        cases h
      · rw [hrec] at h
        have h' : some ((c :: a1, r1) : List Char × List Char) = some (a, r) := h
        injection h' with h'
        injection h' with ha hr
        exact ⟨c, a1, ha.symm, hci⟩
    · rw [if_neg hci] at h
      cases h

theorem ciEq_v_not_c (c : Char) (h : ciEq c 'v' = true) : ciEq c 'c' = false := by
  rcases (ciEq_v_iff c).1 h with rfl | rfl <;> decide

theorem ciEq_v_not_ws (c : Char) (h : ciEq c 'v' = true) : isWsC c = false := by
  rcases (ciEq_v_iff c).1 h with rfl | rfl <;> decide

theorem quote_not_kwletter (c : Char)
    (h : ∃ l ∈ ['c', 'o', 'n', 's', 't', 'v', 'a', 'r'], ciEq c l = true)
    (hq : c = '"') : False := by
  subst hq
  revert h
  decide

theorem quote_not_verletter (c : Char)
    (h : ∃ l ∈ ['v', 'e', 'r', 's', 'i', 'o', 'n'], ciEq c l = true)
    (hq : c = '"') : False := by
  subst hq
  revert h
  decide

theorem matchKeyword_some_inv (s kw r : List Char) (h : matchKeyword s = some (kw, r)) :
    s = kw ++ r ∧ kw ≠ [] ∧ (∀ z, matchKeyword (kw ++ z) = some (kw, z)) ∧
    (∀ c ∈ kw, ∃ l ∈ ['c', 'o', 'n', 's', 't', 'v', 'a', 'r'], ciEq c l = true) := by
  unfold matchKeyword at h
  rcases hconst : pLit ['c', 'o', 'n', 's', 't'] s with _ | ⟨a, r1⟩
  · rw [hconst] at h
    rcases hvar : pLit ['v', 'a', 'r'] s with _ | ⟨a, r1⟩
    · rw [hvar] at h
      cases h
    · rw [hvar] at h
      have h' : some ((a, r1) : List Char × List Char) = some (kw, r) := h
      injection h' with h'
      injection h' with ha hr
      subst ha
      subst hr
      obtain ⟨hs, hmem, hrep, hlen⟩ := pLit_some_inv _ s a r1 hvar
      obtain ⟨c0, a1, hkw0, hc0⟩ := pLit_head 'v' ['a', 'r'] s a r1 hvar
      refine ⟨hs, by simp [hkw0], ?_, ?_⟩
      · intro z
        unfold matchKeyword
        have hcfail : pLit ['c', 'o', 'n', 's', 't'] (a ++ z) = none := by
          rw [hkw0]
          simp only [pLit, List.cons_append]
          rw [ciEq_v_not_c c0 hc0]
          simp
        rw [hcfail, hrep z]
      · intro c hc
        obtain ⟨l, hl, hcil⟩ := hmem c hc
        refine ⟨l, ?_, hcil⟩
        simp only [List.mem_cons] at hl ⊢
        tauto
  · rw [hconst] at h
    have h' : some ((a, r1) : List Char × List Char) = some (kw, r) := h
    injection h' with h'
    injection h' with ha hr
    subst ha
    subst hr
    obtain ⟨hs, hmem, hrep, hlen⟩ := pLit_some_inv _ s a r1 hconst
    refine ⟨hs, ?_, ?_, ?_⟩
    · intro hnil
      rw [hnil] at hlen
      simp at hlen
    · intro z
      unfold matchKeyword
      rw [hrep z]
    · intro c hc
      obtain ⟨l, hl, hcil⟩ := hmem c hc
      refine ⟨l, ?_, hcil⟩
      simp only [List.mem_cons] at hl ⊢
      tauto

theorem matchLead_some_inv (s L r : List Char) (h : matchLead s = some (L, r)) :
    s = L ++ r ∧ (∀ z, matchLead (L ++ z) = some (L, z)) ∧
    ∃ L0, L = L0 ++ ['"'] ∧ '"' ∉ L0 := by
  unfold matchLead at h
  rcases hkw : matchKeyword s with _ | ⟨kw, s1⟩ <;> rw [hkw] at h <;> simp only [] at h
  · cases h
  rcases hw1 : munch1 isWsC s1 with _ | ⟨w1, s2⟩ <;> rw [hw1] at h <;> simp only [] at h
  · cases h
  rcases hlit : pLit ['v', 'e', 'r', 's', 'i', 'o', 'n'] s2 with _ | ⟨lit, s3⟩ <;>
    rw [hlit] at h <;> simp only [] at h
  · cases h
  rcases hm2 : munch isWsC s3 with ⟨w2, s4⟩
  rw [hm2] at h
  simp only [] at h
  rcases heq : pChar '=' s4 with _ | ⟨eqs, s5⟩ <;> rw [heq] at h <;> simp only [] at h
  · cases h
  rcases hm3 : munch isWsC s5 with ⟨w3, s6⟩
  rw [hm3] at h
  simp only [] at h
  rcases hq : pChar '"' s6 with _ | ⟨qs, s7⟩ <;> rw [hq] at h <;> simp only [] at h
  · cases h
  have h' : some ((kw ++ w1 ++ lit ++ w2 ++ eqs ++ w3 ++ qs, s7) : List Char × List Char) =
      some (L, r) := h
  injection h' with h'
  injection h' with hL hr
  obtain ⟨hs1, hkwne, hkwrep, hkwmem⟩ := matchKeyword_some_inv s kw s1 hkw
  obtain ⟨hs2, hw1ne, hw1mem, hw1stop⟩ := munch1_some_inv _ s1 w1 s2 hw1
  obtain ⟨hs3, hlitmem, hlitrep, hlitlen⟩ := pLit_some_inv _ s2 lit s3 hlit
  obtain ⟨hs4, hw2mem, hw2stop⟩ := munch_inv _ s3 w2 s4 hm2
  obtain ⟨hs5, heqa⟩ := pChar_some_inv '=' s4 eqs s5 heq
  obtain ⟨hs6, hw3mem, hw3stop⟩ := munch_inv _ s5 w3 s6 hm3
  obtain ⟨hs7, hqa⟩ := pChar_some_inv '"' s6 qs s7 hq
  obtain ⟨c0, lit1, hlit0, hc0⟩ := pLit_head 'v' ['e', 'r', 's', 'i', 'o', 'n'] s2 lit s3 hlit
  subst hL
  subst hr
  subst heqa
  subst hqa
  refine ⟨?_, ?_, ?_⟩
  · rw [hs1, hs2, hs3, hs4, hs5, hs6, hs7]
    simp [List.append_assoc]
  · intro z
    have harg : (kw ++ w1 ++ lit ++ w2 ++ ['='] ++ w3 ++ ['"']) ++ z =
        kw ++ (w1 ++ (lit ++ (w2 ++ '=' :: (w3 ++ '"' :: z)))) := by
      simp [List.append_assoc]
    unfold matchLead
    rw [harg, hkwrep]
    simp only []
    have hstop1 : stopsAt isWsC (lit ++ (w2 ++ '=' :: (w3 ++ '"' :: z))) := by
      rw [hlit0]
      exact stopsAt_cons _ c0 _ (ciEq_v_not_ws c0 hc0)
    rw [munch1_reparse isWsC w1 _ hw1mem hw1ne hstop1]
    simp only []
    rw [hlitrep]
    simp only []
    rw [munch_reparse isWsC w2 _ hw2mem (stopsAt_cons _ '=' _ (by decide))]
    simp only []
    rw [pChar_self]
    simp only []
    rw [munch_reparse isWsC w3 _ hw3mem (stopsAt_cons _ '"' _ (by decide))]
    simp only []
    rw [pChar_self]
  · refine ⟨kw ++ w1 ++ lit ++ w2 ++ ['='] ++ w3, by simp [List.append_assoc], ?_⟩
    intro hmem
    simp only [List.mem_append] at hmem
    rcases hmem with ((((hx | hx) | hx) | hx) | hx) | hx
    · exact quote_not_kwletter '"' (hkwmem '"' hx) rfl
    · have := hw1mem '"' hx
      revert this
      decide
    · exact quote_not_verletter '"' (hlitmem '"' hx) rfl
    · have := hw2mem '"' hx
      revert this
      decide
    · simp at hx
    · have := hw3mem '"' hx
      revert this
      decide

theorem skipV_of_not_v (c : Char) (cs : List Char) (h : ciEq c 'v' = false) :
    skipV (c :: cs) = ([], c :: cs) := by
  simp [skipV, h]

theorem skipV_of_v (c : Char) (cs : List Char) (h : ciEq c 'v' = true) :
    skipV (c :: cs) = ([c], cs) := by
  simp [skipV, h]

theorem optGroup_skip (m : Char) (p : Char → Bool) (c : Char) (cs : List Char) (h : ¬c = m) :
    optGroup m p (c :: cs) = ([], c :: cs) := by
  simp [optGroup, h]

theorem optGroup_take (m : Char) (p : Char → Bool) (t r : List Char)
    (htne : t ≠ []) (htmem : ∀ x ∈ t, p x = true) (hstop : stopsAt p r) :
    optGroup m p (m :: (t ++ r)) = (m :: t, r) := by
  have hm := munch1_reparse p t r htmem htne hstop
  simp [optGroup, hm]

theorem matchVerNum_build (ov a b c pr bl z : List Char)
    (hane : a ≠ []) (hamem : ∀ x ∈ a, isDigitC x = true)
    (hbne : b ≠ []) (hbmem : ∀ x ∈ b, isDigitC x = true)
    (hcne : c ≠ []) (hcmem : ∀ x ∈ c, isDigitC x = true)
    (hpr : optShape '-' isClassC pr) (hbl : optShape '+' isClassC bl) :
    matchVerNum ov (a ++ ('.' :: (b ++ ('.' :: (c ++ (pr ++ (bl ++ ('"' :: z)))))))) =
      some (ov ++ (a ++ ('.' :: (b ++ ('.' :: (c ++ (pr ++ bl)))))),
            a ++ ('.' :: (b ++ ('.' :: (c ++ (pr ++ bl))))), z) := by
  have hstopbl : stopsAt isClassC (bl ++ '"' :: z) := by
    rcases hbl with rfl | ⟨u, rfl, hune, humem⟩
    · exact stopsAt_cons _ '"' _ (by decide)
    · exact stopsAt_cons _ '+' _ (by decide)
  have hstopc : stopsAt isDigitC (pr ++ (bl ++ '"' :: z)) := by
    rcases hpr with rfl | ⟨t, rfl, htne, htmem⟩
    · rcases hbl with rfl | ⟨u, rfl, hune, humem⟩
      · exact stopsAt_cons _ '"' _ (by decide)
      · exact stopsAt_cons _ '+' _ (by decide)
    · exact stopsAt_cons _ '-' _ (by decide)
  have hog1 : optGroup '-' isClassC (pr ++ (bl ++ '"' :: z)) = (pr, bl ++ '"' :: z) := by
    rcases hpr with rfl | ⟨t, rfl, htne, htmem⟩
    · rcases hbl with rfl | ⟨u, rfl, hune, humem⟩
      · exact optGroup_skip '-' isClassC '"' z (by decide)
      · exact optGroup_skip '-' isClassC '+' (u ++ '"' :: z) (by decide)
    · exact optGroup_take '-' isClassC t (bl ++ '"' :: z) htne htmem hstopbl
  have hog2 : optGroup '+' isClassC (bl ++ '"' :: z) = (bl, '"' :: z) := by
    rcases hbl with rfl | ⟨u, rfl, hune, humem⟩
    · exact optGroup_skip '+' isClassC '"' z (by decide)
    · exact optGroup_take '+' isClassC u ('"' :: z) hune humem
        (stopsAt_cons _ '"' _ (by decide))
  have hstopdot : stopsAt isDigitC ('.' :: (c ++ (pr ++ (bl ++ ('"' :: z))))) :=
    stopsAt_cons _ '.' _ (by decide)
  have hstopdot2 : stopsAt isDigitC ('.' :: (b ++ ('.' :: (c ++ (pr ++ (bl ++ ('"' :: z))))))) :=
    stopsAt_cons _ '.' _ (by decide)
  unfold matchVerNum
  rw [munch1_reparse isDigitC a ('.' :: (b ++ ('.' :: (c ++ (pr ++ (bl ++ ('"' :: z)))))))
    hamem hane hstopdot2]
  simp only []
  rw [pChar_self '.' (b ++ ('.' :: (c ++ (pr ++ (bl ++ ('"' :: z))))))]
  simp only []
  rw [munch1_reparse isDigitC b ('.' :: (c ++ (pr ++ (bl ++ ('"' :: z))))) hbmem hbne hstopdot]
  simp only []
  rw [pChar_self '.' (c ++ (pr ++ (bl ++ ('"' :: z))))]
  simp only []
  rw [munch1_reparse isDigitC c (pr ++ (bl ++ '"' :: z)) hcmem hcne hstopc]
  simp only []
  rw [hog1]
  simp only []
  rw [hog2]
  simp only []
  rw [pChar_self '"' z]
  simp [List.append_assoc]

theorem matchVer_build (a b c pr bl z : List Char)
    (hane : a ≠ []) (hamem : ∀ x ∈ a, isDigitC x = true)
    (hbne : b ≠ []) (hbmem : ∀ x ∈ b, isDigitC x = true)
    (hcne : c ≠ []) (hcmem : ∀ x ∈ c, isDigitC x = true)
    (hpr : optShape '-' isClassC pr) (hbl : optShape '+' isClassC bl) :
    matchVer (a ++ ('.' :: (b ++ ('.' :: (c ++ (pr ++ (bl ++ ('"' :: z)))))))) =
      some (a ++ ('.' :: (b ++ ('.' :: (c ++ (pr ++ bl))))),
            a ++ ('.' :: (b ++ ('.' :: (c ++ (pr ++ bl))))), z) := by
  cases a with
  | nil => exact absurd rfl hane
  | cons a0 as =>
    have h0 : isDigitC a0 = true := hamem a0 (by simp)
    unfold matchVer
    have hskip : skipV ((a0 :: as) ++ ('.' :: (b ++ ('.' :: (c ++ (pr ++ (bl ++ ('"' :: z)))))))) =
        ([], (a0 :: as) ++ ('.' :: (b ++ ('.' :: (c ++ (pr ++ (bl ++ ('"' :: z)))))))) :=
      skipV_of_not_v a0 _ (isDigitC_not_ciEq_v a0 h0)
    rw [hskip]
    simp only []
    exact matchVerNum_build [] (a0 :: as) b c pr bl z hane hamem hbne hbmem hcne hcmem hpr hbl

theorem optGroup_inv (m : Char) (p : Char → Bool) (s g r : List Char)
    (h : optGroup m p s = (g, r)) :
    (g = [] ∧ r = s) ∨
    (∃ t, g = m :: t ∧ t ≠ [] ∧ (∀ x ∈ t, p x = true) ∧ stopsAt p r ∧ s = m :: (t ++ r)) := by
  cases s with
  | nil =>
    have h' : (([], []) : List Char × List Char) = (g, r) := h
    injection h' with hg hr
    exact Or.inl ⟨hg.symm, hr.symm⟩
  | cons c cs =>
    simp only [optGroup] at h
    by_cases hcm : c = m
    · subst hcm
      rw [if_pos rfl] at h
      rcases hm1 : munch1 p cs with _ | ⟨t, r1⟩ <;> rw [hm1] at h
      · have h' : (([], c :: cs) : List Char × List Char) = (g, r) := h
        injection h' with hg hr
        exact Or.inl ⟨hg.symm, hr.symm⟩
      · have h' : ((c :: t, r1) : List Char × List Char) = (g, r) := h
        injection h' with hg hr
        obtain ⟨hcs, htne, htmem, hstop⟩ := munch1_some_inv p cs t r1 hm1
        refine Or.inr ⟨t, hg.symm, htne, htmem, hr ▸ hstop, ?_⟩
        rw [hcs, hr]
    · rw [if_neg hcm] at h
      have h' : (([], c :: cs) : List Char × List Char) = (g, r) := h
      injection h' with hg hr
      exact Or.inl ⟨hg.symm, hr.symm⟩

theorem matchVerNum_some_inv (ov s1 sp cap r : List Char)
    (h : matchVerNum ov s1 = some (sp, cap, r)) :
    ∃ a b c pr bl,
      s1 = a ++ ('.' :: (b ++ ('.' :: (c ++ (pr ++ (bl ++ ('"' :: r))))))) ∧
      sp = ov ++ cap ∧
      cap = a ++ ('.' :: (b ++ ('.' :: (c ++ (pr ++ bl))))) ∧
      a ≠ [] ∧ (∀ x ∈ a, isDigitC x = true) ∧
      b ≠ [] ∧ (∀ x ∈ b, isDigitC x = true) ∧
      c ≠ [] ∧ (∀ x ∈ c, isDigitC x = true) ∧
      optShape '-' isClassC pr ∧ optShape '+' isClassC bl := by
  unfold matchVerNum at h
  rcases hd1 : munch1 isDigitC s1 with _ | ⟨d1, s2⟩ <;> rw [hd1] at h <;> simp only [] at h
  · cases h
  rcases hp1 : pChar '.' s2 with _ | ⟨dot1, s3⟩ <;> rw [hp1] at h <;> simp only [] at h
  · cases h
  rcases hd2 : munch1 isDigitC s3 with _ | ⟨d2, s4⟩ <;> rw [hd2] at h <;> simp only [] at h
  · cases h
  rcases hp2 : pChar '.' s4 with _ | ⟨dot2, s5⟩ <;> rw [hp2] at h <;> simp only [] at h
  · cases h
  rcases hd3 : munch1 isDigitC s5 with _ | ⟨d3, s6⟩ <;> rw [hd3] at h <;> simp only [] at h
  · cases h
  rcases hg1 : optGroup '-' isClassC s6 with ⟨pr1, s7⟩
  rw [hg1] at h
  simp only [] at h
  rcases hg2 : optGroup '+' isClassC s7 with ⟨bl1, s8⟩
  rw [hg2] at h
  simp only [] at h
  rcases hp3 : pChar '"' s8 with _ | ⟨q1, s9⟩ <;> rw [hp3] at h <;> simp only [] at h
  · cases h
  have h' : some ((ov ++ (d1 ++ '.' :: d2 ++ '.' :: d3 ++ pr1 ++ bl1),
      d1 ++ '.' :: d2 ++ '.' :: d3 ++ pr1 ++ bl1, s9) :
      List Char × List Char × List Char) = some (sp, cap, r) := h
  injection h' with h'
  injection h' with hsp h''
  injection h'' with hcap hr
  obtain ⟨hs1, hd1ne, hd1mem, hd1stop⟩ := munch1_some_inv _ s1 d1 s2 hd1
  obtain ⟨hs2, hdot1⟩ := pChar_some_inv '.' s2 dot1 s3 hp1
  obtain ⟨hs3, hd2ne, hd2mem, hd2stop⟩ := munch1_some_inv _ s3 d2 s4 hd2
  obtain ⟨hs4, hdot2⟩ := pChar_some_inv '.' s4 dot2 s5 hp2
  obtain ⟨hs5, hd3ne, hd3mem, hd3stop⟩ := munch1_some_inv _ s5 d3 s6 hd3
  obtain ⟨hs8, hq1⟩ := pChar_some_inv '"' s8 q1 s9 hp3
  have hg1shape : optShape '-' isClassC pr1 ∧ s6 = pr1 ++ s7 := by
    rcases optGroup_inv '-' isClassC s6 pr1 s7 hg1 with ⟨hg, hrr⟩ | ⟨t, hg, htne, htmem, hst, hss⟩
    · subst hg
      exact ⟨Or.inl rfl, by simp [hrr]⟩
    · subst hg
      exact ⟨Or.inr ⟨t, rfl, htne, htmem⟩, by simp [hss]⟩
  have hg2shape : optShape '+' isClassC bl1 ∧ s7 = bl1 ++ s8 := by
    rcases optGroup_inv '+' isClassC s7 bl1 s8 hg2 with ⟨hg, hrr⟩ | ⟨t, hg, htne, htmem, hst, hss⟩
    · subst hg
      exact ⟨Or.inl rfl, by simp [hrr]⟩
    · subst hg
      exact ⟨Or.inr ⟨t, rfl, htne, htmem⟩, by simp [hss]⟩
  refine ⟨d1, d2, d3, pr1, bl1, ?_, ?_, ?_, hd1ne, hd1mem, hd2ne, hd2mem, hd3ne, hd3mem,
    hg1shape.1, hg2shape.1⟩
  · rw [hs1, hs2, hs3, hs4, hs5, hg1shape.2, hg2shape.2, hs8, ← hr]
  · rw [← hsp, ← hcap]
  · rw [← hcap]
    simp [List.append_assoc]

theorem quote_not_in_cap (a b c pr bl : List Char)
    (hamem : ∀ x ∈ a, isDigitC x = true)
    (hbmem : ∀ x ∈ b, isDigitC x = true)
    (hcmem : ∀ x ∈ c, isDigitC x = true)
    (hpr : optShape '-' isClassC pr) (hbl : optShape '+' isClassC bl) :
    ('"' : Char) ∉ a ++ ('.' :: (b ++ ('.' :: (c ++ (pr ++ bl))))) := by
  intro hmem
  simp only [List.mem_append, List.mem_cons] at hmem
  rcases hmem with hx | hx | hx | hx | hx | hx | hx
  · exact absurd (hamem _ hx) (by decide)
  · exact absurd hx (by decide)
  · exact absurd (hbmem _ hx) (by decide)
  · exact absurd hx (by decide)
  · exact absurd (hcmem _ hx) (by decide)
  · rcases hpr with rfl | ⟨t, rfl, htne, htmem⟩
    · cases hx
    · simp only [List.mem_cons] at hx
      rcases hx with hx | hx
      · exact absurd hx (by decide)
      · exact absurd (htmem _ hx) (by decide)
  · rcases hbl with rfl | ⟨t, rfl, htne, htmem⟩
    · cases hx
    · simp only [List.mem_cons] at hx
      rcases hx with hx | hx
      · exact absurd hx (by decide)
      · exact absurd (htmem _ hx) (by decide)

theorem matchVer_some_inv (s sp cap r : List Char) (h : matchVer s = some (sp, cap, r)) :
    s = sp ++ '"' :: r ∧ ('"' : Char) ∉ sp ∧
    (∀ z, matchVer (sp ++ '"' :: z) = some (sp, cap, z)) := by
  unfold matchVer at h
  cases s with
  | nil => simp [skipV, matchVerNum, munch1] at h
  | cons c0 cs =>
    by_cases hv : ciEq c0 'v' = true
    · rw [skipV_of_v c0 cs hv] at h
      simp only [] at h
      obtain ⟨a, b, c, pr, bl, hs1, hsp, hcap, hane, hamem, hbne, hbmem, hcne, hcmem, hpr, hbl⟩ :=
        matchVerNum_some_inv [c0] cs sp cap r h
      have hsp' : sp = c0 :: cap := by
        rw [hsp]
        rfl
      refine ⟨?_, ?_, ?_⟩
      · rw [hsp', hs1, hcap]
        simp [List.append_assoc]
      · rw [hsp']
        intro hmem
        simp only [List.mem_cons] at hmem
        rcases hmem with hmem | hmem
        · rcases (ciEq_v_iff c0).1 hv with rfl | rfl <;> cases hmem
        · rw [hcap] at hmem
          exact quote_not_in_cap a b c pr bl hamem hbmem hcmem hpr hbl hmem
      · intro z
        have harg : sp ++ '"' :: z =
            c0 :: (a ++ ('.' :: (b ++ ('.' :: (c ++ (pr ++ (bl ++ ('"' :: z)))))))) := by
          rw [hsp', hcap]
          simp [List.append_assoc]
        rw [harg]
        unfold matchVer
        rw [skipV_of_v c0 _ hv]
        simp only []
        rw [matchVerNum_build [c0] a b c pr bl z hane hamem hbne hbmem hcne hcmem hpr hbl]
        rw [hsp', hcap]
        rfl
    · have hv' : ciEq c0 'v' = false := by
        rcases hb : ciEq c0 'v' with _ | _
        · rfl
        · exact absurd hb hv
      rw [skipV_of_not_v c0 cs hv'] at h
      simp only [] at h
      obtain ⟨a, b, c, pr, bl, hs1, hsp, hcap, hane, hamem, hbne, hbmem, hcne, hcmem, hpr, hbl⟩ :=
        matchVerNum_some_inv [] (c0 :: cs) sp cap r h
      have hsp' : sp = cap := by
        rw [hsp]
        rfl
      refine ⟨?_, ?_, ?_⟩
      · rw [hsp', hs1, hcap]
        simp [List.append_assoc]
      · rw [hsp', hcap]
        exact quote_not_in_cap a b c pr bl hamem hbmem hcmem hpr hbl
      · intro z
        have harg : sp ++ '"' :: z =
            a ++ ('.' :: (b ++ ('.' :: (c ++ (pr ++ (bl ++ ('"' :: z))))))) := by
          rw [hsp', hcap]
          simp [List.append_assoc]
        rw [harg]
        rw [matchVer_build a b c pr bl z hane hamem hbne hbmem hcne hcmem hpr hbl]
        rw [hsp', hcap]

theorem matchAt_some_inv (s L sp cp r : List Char)
    (h : matchAt s = some (L, sp, cp, r)) :
    s = L ++ (sp ++ '"' :: r) ∧
    (∀ z, matchLead (L ++ z) = some (L, z)) ∧
    (∃ L0, L = L0 ++ ['"'] ∧ ('"' : Char) ∉ L0) ∧
    ('"' : Char) ∉ sp ∧
    (∀ z, matchVer (sp ++ '"' :: z) = some (sp, cp, z)) := by
  unfold matchAt at h
  rcases hld : matchLead s with _ | ⟨L1, s1⟩ <;> rw [hld] at h <;> simp only [] at h
  · cases h
  rcases hmv : matchVer s1 with _ | ⟨sp1, cp1, r1⟩ <;> rw [hmv] at h <;> simp only [] at h
  · cases h
  simp only [Option.some.injEq, Prod.mk.injEq] at h
  obtain ⟨h1, h2, h3, h4⟩ := h
  subst h1
  subst h2
  subst h3
  subst h4
  obtain ⟨hs, hrep, hq⟩ := matchLead_some_inv s L1 s1 hld
  obtain ⟨hs1, hqsp, hvrep⟩ := matchVer_some_inv s1 sp1 cp1 r1 hmv
  exact ⟨by rw [hs, hs1], hrep, hq, hqsp, hvrep⟩

theorem matchAt_build (L sp cp : List Char)
    (hrep : ∀ z, matchLead (L ++ z) = some (L, z))
    (hver : ∀ z, matchVer (sp ++ '"' :: z) = some (sp, cp, z)) :
    ∀ z, matchAt (L ++ (sp ++ '"' :: z)) = some (L, sp, cp, z) := by
  intro z
  unfold matchAt
  rw [hrep (sp ++ '"' :: z)]
  simp only []
  rw [hver z]

theorem quote_split_unique (a : List Char) :
    ∀ b a2 b2 : List Char, a ++ '"' :: b = a2 ++ '"' :: b2 →
      ('"' : Char) ∉ a → ('"' : Char) ∉ a2 → a = a2 ∧ b = b2 := by
  induction a with
  | nil =>
    intro b a2 b2 h ha ha2
    cases a2 with
    | nil =>
      refine ⟨rfl, ?_⟩
      simpa using h
    | cons y ys =>
      have h' : ('"' :: b : List Char) = y :: (ys ++ '"' :: b2) := h
      injection h' with h1 h2
      subst h1
      exact absurd (List.mem_cons_self _ _) ha2
  | cons x xs ih =>
    intro b a2 b2 h ha ha2
    cases a2 with
    | nil =>
      have h' : (x :: (xs ++ '"' :: b) : List Char) = '"' :: b2 := h
      injection h' with h1 h2
      subst h1
      exact absurd (List.mem_cons_self _ _) ha
    | cons y ys =>
      have h' : (x :: (xs ++ '"' :: b) : List Char) = y :: (ys ++ '"' :: b2) := h
      injection h' with h1 h2
      subst h1
      have hxs : ('"' : Char) ∉ xs := fun hm => ha (List.mem_cons_of_mem _ hm)
      have hys : ('"' : Char) ∉ ys := fun hm => ha2 (List.mem_cons_of_mem _ hm)
      obtain ⟨he, hb⟩ := ih b ys b2 h2 hxs hys
      exact ⟨by rw [he], hb⟩

theorem mem_split_first (x : List Char) (hq : ('"' : Char) ∈ x) :
    ∃ x0 x1, x = x0 ++ '"' :: x1 ∧ ('"' : Char) ∉ x0 := by
  induction x with
  | nil => cases hq
  | cons c cs ih =>
    by_cases hc : c = '"'
    · subst hc
      exact ⟨[], cs, rfl, by simp⟩
    · have hq' : ('"' : Char) ∈ cs := by
        rcases List.mem_cons.1 hq with h1 | h1
        · exact absurd h1.symm hc
        · exact h1
      obtain ⟨x0, x1, hx, hx0⟩ := ih hq'
      refine ⟨c :: x0, x1, by simp [hx], ?_⟩
      intro hm
      rcases List.mem_cons.1 hm with h1 | h1
      · exact hc h1.symm
      · exact hx0 h1

theorem quote_transfer (sp r u w : List Char)
    (h : sp ++ '"' :: r = u ++ w) (hu : ('"' : Char) ∈ u) (hsp : ('"' : Char) ∉ sp) :
    ∃ r1, u = sp ++ '"' :: r1 := by
  obtain ⟨u0, u1, hu01, hu0q⟩ := mem_split_first u hu
  have h2 : sp ++ '"' :: r = u0 ++ '"' :: (u1 ++ w) := by
    rw [h, hu01]
    simp [List.append_assoc]
  obtain ⟨hspu0, hr⟩ := quote_split_unique sp r u0 (u1 ++ w) h2 hsp hu0q
  exact ⟨u1, by rw [hu01, hspu0]⟩

theorem matchAt_replace_none (x lead span cap newv R : List Char)
    (hsrep : ∀ z, matchVer (span ++ '"' :: z) = some (span, cap, z))
    (hLq0 : ∃ L00, lead = L00 ++ ['"'] ∧ ('"' : Char) ∉ L00)
    (h0 : matchAt (x ++ (lead ++ (span ++ '"' :: R))) = none) :
    matchAt (x ++ (lead ++ (newv ++ '"' :: R))) = none := by
  rcases hm : matchAt (x ++ (lead ++ (newv ++ '"' :: R))) with _ | ⟨L, sp, cp, r⟩
  · rfl
  exfalso
  obtain ⟨hsnew, hLrep, ⟨L0, hL, hL0q⟩, hspq, hvrep⟩ := matchAt_some_inv _ L sp cp r hm
  obtain ⟨L00, hlead00, hq00⟩ := hLq0
  by_cases hqx : ('"' : Char) ∈ x
  · obtain ⟨x0, x1, hx01, hx0q⟩ := mem_split_first x hqx
    have hnew2 : L0 ++ '"' :: (sp ++ '"' :: r) =
        x0 ++ '"' :: (x1 ++ (lead ++ (newv ++ '"' :: R))) := by
      calc L0 ++ '"' :: (sp ++ '"' :: r)
          = L ++ (sp ++ '"' :: r) := by rw [hL]; simp [List.append_assoc]
        _ = x ++ (lead ++ (newv ++ '"' :: R)) := hsnew.symm
        _ = x0 ++ '"' :: (x1 ++ (lead ++ (newv ++ '"' :: R))) := by
            rw [hx01]; simp [List.append_assoc]
    obtain ⟨hL0x0, hrest⟩ := quote_split_unique L0 (sp ++ '"' :: r) x0
      (x1 ++ (lead ++ (newv ++ '"' :: R))) hnew2 hL0q hx0q
    have hrest2 : sp ++ '"' :: r = (x1 ++ lead) ++ (newv ++ '"' :: R) := by
      rw [hrest]
      simp [List.append_assoc]
    have hqu : ('"' : Char) ∈ x1 ++ lead := by
      rw [hlead00]
      simp
    obtain ⟨r1, hu⟩ := quote_transfer sp r (x1 ++ lead) (newv ++ '"' :: R)
      hrest2 hqu hspq
    have harg : x ++ (lead ++ (span ++ '"' :: R)) =
        L ++ (sp ++ '"' :: (r1 ++ (span ++ '"' :: R))) := by
      calc x ++ (lead ++ (span ++ '"' :: R))
          = (x0 ++ '"' :: x1) ++ (lead ++ (span ++ '"' :: R)) := by rw [hx01]
        _ = x0 ++ '"' :: ((x1 ++ lead) ++ (span ++ '"' :: R)) := by simp [List.append_assoc]
        _ = x0 ++ '"' :: ((sp ++ '"' :: r1) ++ (span ++ '"' :: R)) := by rw [hu]
        _ = (x0 ++ ['"']) ++ (sp ++ '"' :: (r1 ++ (span ++ '"' :: R))) := by
            simp [List.append_assoc]
        _ = L ++ (sp ++ '"' :: (r1 ++ (span ++ '"' :: R))) := by rw [hL, hL0x0]
    have hold : matchAt (x ++ (lead ++ (span ++ '"' :: R))) =
        some (L, sp, cp, r1 ++ (span ++ '"' :: R)) := by
      rw [harg]
      exact matchAt_build L sp cp hLrep hvrep _
    rw [h0] at hold
    cases hold
  · have hnew2 : L0 ++ '"' :: (sp ++ '"' :: r) = (x ++ L00) ++ '"' :: (newv ++ '"' :: R) := by
      calc L0 ++ '"' :: (sp ++ '"' :: r)
          = L ++ (sp ++ '"' :: r) := by rw [hL]; simp [List.append_assoc]
        _ = x ++ (lead ++ (newv ++ '"' :: R)) := hsnew.symm
        _ = (x ++ L00) ++ '"' :: (newv ++ '"' :: R) := by
            rw [hlead00]; simp [List.append_assoc]
    have hxq : ('"' : Char) ∉ x ++ L00 := by
      intro hmm
      rcases List.mem_append.1 hmm with hh | hh
      · exact hqx hh
      · exact hq00 hh
    obtain ⟨hL0eq, hrest⟩ := quote_split_unique L0 (sp ++ '"' :: r) (x ++ L00)
      (newv ++ '"' :: R) hnew2 hL0q hxq
    have hLx : L = x ++ lead := by
      rw [hL, hL0eq, hlead00]
      simp [List.append_assoc]
    have hold : matchAt (x ++ (lead ++ (span ++ '"' :: R))) = some (L, span, cap, R) := by
      have harg : x ++ (lead ++ (span ++ '"' :: R)) = L ++ (span ++ '"' :: R) := by
        rw [hLx]
        simp [List.append_assoc]
      rw [harg]
      exact matchAt_build L span cap hLrep hsrep R
    rw [h0] at hold
    cases hold

theorem findMatch_of_matchAt (X l sp cp r : List Char)
    (h : matchAt X = some (l, sp, cp, r)) :
    findMatch X = some ([], l, sp, cp, r) := by
  cases X with
  | nil =>
    have h' : (none : Option (List Char × List Char × List Char × List Char)) =
        some (l, sp, cp, r) := h
    cases h'
  | cons c cs =>
    unfold findMatch
    rw [h]

theorem findMatch_some_inv (s : List Char) :
    ∀ pre lead span cap r, findMatch s = some (pre, lead, span, cap, r) →
      s = pre ++ (lead ++ (span ++ '"' :: r)) ∧
      (∀ z, matchLead (lead ++ z) = some (lead, z)) ∧
      (∃ L0, lead = L0 ++ ['"'] ∧ ('"' : Char) ∉ L0) ∧
      ('"' : Char) ∉ span ∧
      (∀ z, matchVer (span ++ '"' :: z) = some (span, cap, z)) := by
  induction s with
  | nil =>
    intro pre lead span cap r h
    cases h
  | cons c cs ih =>
    intro pre lead span cap r h
    unfold findMatch at h
    rcases hma : matchAt (c :: cs) with _ | ⟨L1, sp1, cp1, r1⟩ <;> rw [hma] at h <;>
      simp only [] at h
    · rcases hfm : findMatch cs with _ | ⟨p2, l2, sp2, cp2, r2⟩ <;> rw [hfm] at h <;>
        simp only [] at h
      · cases h
      · simp only [Option.some.injEq, Prod.mk.injEq] at h
        obtain ⟨h1, h2, h3, h4, h5⟩ := h
        subst h1
        subst h2
        subst h3
        subst h4
        subst h5
        obtain ⟨hs, hrep, hq, hsq, hvrep⟩ := ih p2 l2 sp2 cp2 r2 hfm
        exact ⟨by simp [hs], hrep, hq, hsq, hvrep⟩
    · simp only [Option.some.injEq, Prod.mk.injEq] at h
      obtain ⟨h1, h2, h3, h4, h5⟩ := h
      subst h1
      subst h2
      subst h3
      subst h4
      subst h5
      obtain ⟨hs, hrep, hq, hsq, hvrep⟩ := matchAt_some_inv (c :: cs) L1 sp1 cp1 r1 hma
      exact ⟨by simp [hs], hrep, hq, hsq, hvrep⟩

theorem findMatch_replace (s : List Char) :
    ∀ pre lead span cap r newv capn,
      findMatch s = some (pre, lead, span, cap, r) →
      (∀ z, matchVer (newv ++ '"' :: z) = some (newv, capn, z)) →
      findMatch (pre ++ (lead ++ (newv ++ '"' :: r))) = some (pre, lead, newv, capn, r) := by
  induction s with
  | nil =>
    intro pre lead span cap r newv capn h hn
    cases h
  | cons c cs ih =>
    intro pre lead span cap r newv capn h hn
    unfold findMatch at h
    rcases hma : matchAt (c :: cs) with _ | ⟨L1, sp1, cp1, r1⟩ <;> rw [hma] at h <;>
      simp only [] at h
    · rcases hfm : findMatch cs with _ | ⟨p2, l2, sp2, cp2, r2⟩ <;> rw [hfm] at h <;>
        simp only [] at h
      · cases h
      · simp only [Option.some.injEq, Prod.mk.injEq] at h
        obtain ⟨h1, h2, h3, h4, h5⟩ := h
        subst h1
        subst h2
        subst h3
        subst h4
        subst h5
        obtain ⟨hs, hrep, hq, hsq, hvrep⟩ := findMatch_some_inv cs p2 l2 sp2 cp2 r2 hfm
        have hnone : matchAt ((c :: p2) ++ (l2 ++ (newv ++ '"' :: r2))) = none := by
          have hold0 : matchAt ((c :: p2) ++ (l2 ++ (sp2 ++ '"' :: r2))) = none := by
            have harg : (c :: p2) ++ (l2 ++ (sp2 ++ '"' :: r2)) = c :: cs := by
              rw [hs]
              rfl
            rw [harg]
            exact hma
          exact matchAt_replace_none (c :: p2) l2 sp2 cp2 newv r2 hvrep hq hold0
        have hrec := ih p2 l2 sp2 cp2 r2 newv capn hfm hn
        have hgoal : findMatch (c :: (p2 ++ (l2 ++ (newv ++ '"' :: r2)))) =
            some (c :: p2, l2, newv, capn, r2) := by
          unfold findMatch
          rw [show matchAt (c :: (p2 ++ (l2 ++ (newv ++ '"' :: r2)))) = none from hnone]
          simp only []
          rw [hrec]
        exact hgoal
    · simp only [Option.some.injEq, Prod.mk.injEq] at h
      obtain ⟨h1, h2, h3, h4, h5⟩ := h
      subst h1
      subst h2
      subst h3
      subst h4
      subst h5
      obtain ⟨hs, hrep, hq, hsq, hvrep⟩ := matchAt_some_inv (c :: cs) L1 sp1 cp1 r1 hma
      have hm2 : matchAt (L1 ++ (newv ++ '"' :: r1)) = some (L1, newv, capn, r1) :=
        matchAt_build L1 newv capn hrep hn r1
      exact findMatch_of_matchAt (L1 ++ (newv ++ '"' :: r1)) L1 newv capn r1 hm2

/-! ## Helper lemmas: semver parsing -/

theorem splitFirst_none_inv (sep : Char) (s : List Char) :
    ∀ a, splitFirst sep s = (a, none) → s = a ∧ sep ∉ a := by
  induction s with
  | nil =>
    intro a h
    have h' : (([], none) : List Char × Option (List Char)) = (a, none) := h
    injection h' with h1 h2
    subst h1
    exact ⟨rfl, by simp⟩
  | cons c cs ih =>
    intro a h
    unfold splitFirst at h
    by_cases hc : c = sep
    · rw [if_pos hc] at h
      have h' : (([], some cs) : List Char × Option (List Char)) = (a, none) := h
      injection h' with h1 h2
      cases h2
    · rw [if_neg hc] at h
      rcases hrec : splitFirst sep cs with ⟨a1, b1⟩
      rw [hrec] at h
      have h' : ((c :: a1, b1) : List Char × Option (List Char)) = (a, none) := h
      injection h' with h1 h2
      subst h1
      subst h2
      obtain ⟨hs, hmem⟩ := ih a1 hrec
      refine ⟨by rw [hs], ?_⟩
      intro hm
      rcases List.mem_cons.1 hm with h1 | h1
      · exact hc h1.symm
      · exact hmem h1

theorem splitFirst_some_inv (sep : Char) (s : List Char) :
    ∀ a b, splitFirst sep s = (a, some b) → s = a ++ sep :: b ∧ sep ∉ a := by
  induction s with
  | nil =>
    intro a b h
    have h' : (([], none) : List Char × Option (List Char)) = (a, some b) := h
    injection h' with h1 h2
    cases h2
  | cons c cs ih =>
    intro a b h
    unfold splitFirst at h
    by_cases hc : c = sep
    · rw [if_pos hc] at h
      have h' : (([], some cs) : List Char × Option (List Char)) = (a, some b) := h
      injection h' with h1 h2
      injection h2 with h2
      subst h1
      subst h2
      subst hc
      exact ⟨rfl, by simp⟩
    · rw [if_neg hc] at h
      rcases hrec : splitFirst sep cs with ⟨a1, b1⟩
      rw [hrec] at h
      have h' : ((c :: a1, b1) : List Char × Option (List Char)) = (a, some b) := h
      injection h' with h1 h2
      subst h1
      subst h2
      obtain ⟨hs, hmem⟩ := ih a1 b hrec
      refine ⟨by simp [hs], ?_⟩
      intro hm
      rcases List.mem_cons.1 hm with h1 | h1
      · exact hc h1.symm
      · exact hmem h1

theorem splitOnChar_ne_nil (sep : Char) (l : List Char) : splitOnChar sep l ≠ [] := by
  cases l with
  | nil => simp [splitOnChar]
  | cons c cs =>
    unfold splitOnChar
    rcases h : splitOnChar sep cs with _ | ⟨g, gs⟩
    · simp
    · by_cases hc : c = sep <;> simp [hc]

theorem joinSep_cons_head (sep c : Char) (g : List Char) (gs : List (List Char)) :
    joinSep sep ((c :: g) :: gs) = c :: joinSep sep (g :: gs) := by
  cases gs <;> simp [joinSep]

theorem joinSep_splitOnChar (sep : Char) (l : List Char) :
    joinSep sep (splitOnChar sep l) = l := by
  induction l with
  | nil => rfl
  | cons c cs ih =>
    unfold splitOnChar
    rcases h : splitOnChar sep cs with _ | ⟨g, gs⟩
    · exact absurd h (splitOnChar_ne_nil sep cs)
    · rw [h] at ih
      by_cases hc : c = sep
      · subst hc
        simp only [if_pos rfl]
        show c :: joinSep c (g :: gs) = c :: cs
        rw [ih]
      · simp only [if_neg hc]
        rw [joinSep_cons_head, ih]

theorem mem_splitOnChar_chars (sep : Char) (l : List Char) :
    ∀ x ∈ l, x = sep ∨ ∃ g ∈ splitOnChar sep l, x ∈ g := by
  induction l with
  | nil => intro x hx; cases hx
  | cons c cs ih =>
    intro x hx
    unfold splitOnChar
    rcases h : splitOnChar sep cs with _ | ⟨g, gs⟩
    · exact absurd h (splitOnChar_ne_nil sep cs)
    · rw [h] at ih
      rcases List.mem_cons.1 hx with rfl | hx'
      · by_cases hc : x = sep
        · exact Or.inl hc
        · simp only [if_neg hc]
          exact Or.inr ⟨x :: g, by simp, by simp⟩
      · rcases ih x hx' with h1 | ⟨g1, hg1, hxg1⟩
        · exact Or.inl h1
        · by_cases hc : c = sep
          · subst hc
            simp only [if_pos rfl]
            exact Or.inr ⟨g1, by simp [List.mem_cons.1 hg1], hxg1⟩
          · simp only [if_neg hc]
            rcases List.mem_cons.1 hg1 with rfl | hg1'
            · exact Or.inr ⟨c :: g1, by simp, by simp [hxg1]⟩
            · exact Or.inr ⟨g1, by simp [hg1'], hxg1⟩

theorem parseNumStrict_some_inv (l : List Char) (n : Nat) (h : parseNumStrict l = some n) :
    l ≠ [] ∧ ∀ x ∈ l, isDigitC x = true := by
  unfold parseNumStrict at h
  by_cases hne : l.isEmpty
  · rw [if_pos hne] at h
    cases h
  · rw [if_neg hne] at h
    by_cases hall : l.all isDigitC
    · refine ⟨fun hnil => hne (by rw [hnil]; rfl), fun x hx => List.all_eq_true.1 hall x hx⟩
    · rw [show (!l.all isDigitC) = true by simp [hall]] at h
      simp at h

theorem identOk_chars (b : Bool) (g : List Char) (h : identOk b g = true) :
    ∀ x ∈ g, isClassC x = true := by
  intro x hx
  simp only [identOk, Bool.and_eq_true] at h
  have hid : isIdentC x = true := List.all_eq_true.1 h.1.2 x hx
  simp only [isIdentC, Bool.or_eq_true] at hid
  simp only [isClassC, Bool.or_eq_true]
  tauto

theorem identsOk_chars (b : Bool) (p : List Char) (h : identsOk b p = true) :
    ∀ x ∈ p, isClassC x = true := by
  intro x hx
  rcases mem_splitOnChar_chars '.' p x hx with rfl | ⟨g, hg, hxg⟩
  · decide
  · exact identOk_chars b g (List.all_eq_true.1 h g hg) x hxg

theorem identsOk_ne_nil (b : Bool) (h : identsOk b [] = true) : False := by
  cases b <;> simp [identsOk, splitOnChar, identOk] at h

theorem ite_some_inv {α : Type} {c : Prop} [Decidable c] {x sv : α}
    (h : (if c then some x else none) = some sv) : c ∧ x = sv := by
  by_cases hc : c
  · rw [if_pos hc] at h
    exact ⟨hc, Option.some.inj h⟩
  · rw [if_neg hc] at h
    cases h

theorem matchVer_of_decomp (vd a b c pr bl : List Char)
    (hv : vd = a ++ ('.' :: (b ++ ('.' :: (c ++ (pr ++ bl))))))
    (hane : a ≠ []) (hamem : ∀ x ∈ a, isDigitC x = true)
    (hbne : b ≠ []) (hbmem : ∀ x ∈ b, isDigitC x = true)
    (hcne : c ≠ []) (hcmem : ∀ x ∈ c, isDigitC x = true)
    (hpr : optShape '-' isClassC pr) (hbl : optShape '+' isClassC bl) :
    (∀ z, matchVer (vd ++ '"' :: z) = some (vd, vd, z)) ∧ ('"' : Char) ∉ vd := by
  constructor
  · intro z
    have harg : vd ++ '"' :: z =
        a ++ ('.' :: (b ++ ('.' :: (c ++ (pr ++ (bl ++ ('"' :: z))))))) := by
      rw [hv]
      simp [List.append_assoc]
    rw [harg, matchVer_build a b c pr bl z hane hamem hbne hbmem hcne hcmem hpr hbl, hv]
  · rw [hv]
    exact quote_not_in_cap a b c pr bl hamem hbmem hcmem hpr hbl

theorem semverParse_ver_facts (v : String) (sv : SemVer) (h : semverParse v = some sv) :
    (∀ z, matchVer (v.data ++ '"' :: z) = some (v.data, v.data, z)) ∧
    ('"' : Char) ∉ v.data := by
  unfold semverParse at h
  rcases hsf1 : splitFirst '+' v.data with ⟨core, bld⟩
  rw [hsf1] at h
  simp only [] at h
  rcases hsf2 : splitFirst '-' core with ⟨nums, pre⟩
  rw [hsf2] at h
  simp only [] at h
  rcases hsp : splitOnChar '.' nums with _ | ⟨a, _ | ⟨b, _ | ⟨c, _ | ⟨d, ds⟩⟩⟩⟩ <;>
    rw [hsp] at h <;> (try simp only [] at h)
  · cases h
  · cases h
  · cases h
  · rcases hpa : parseNumStrict a with _ | na <;> rw [hpa] at h <;> (try simp only [] at h)
    · cases h
    rcases hpb : parseNumStrict b with _ | nb <;> rw [hpb] at h <;> (try simp only [] at h)
    · cases h
    rcases hpc : parseNumStrict c with _ | nc <;> rw [hpc] at h <;> (try simp only [] at h)
    · cases h
    obtain ⟨hane, hamem⟩ := parseNumStrict_some_inv a na hpa
    obtain ⟨hbne, hbmem⟩ := parseNumStrict_some_inv b nb hpb
    obtain ⟨hcne, hcmem⟩ := parseNumStrict_some_inv c nc hpc
    have hnums : nums = a ++ ('.' :: (b ++ ('.' :: c))) := by
      have := joinSep_splitOnChar '.' nums
      rw [hsp] at this
      exact this.symm
    cases pre with
    | none =>
      obtain ⟨hcore, hcq⟩ := splitFirst_none_inv '-' core nums hsf2
      cases bld with
      | none =>
        obtain ⟨hvd, hvq⟩ := splitFirst_none_inv '+' v.data core hsf1
        exact matchVer_of_decomp v.data a b c [] []
          (by rw [hvd, hcore, hnums]; simp [List.append_assoc])
          hane hamem hbne hbmem hcne hcmem (Or.inl rfl) (Or.inl rfl)
      | some bl =>
        obtain ⟨hcond, _⟩ := ite_some_inv h
        have hbl : identsOk false bl = true := hcond
        have hblne : bl ≠ [] := by
          intro hnil
          rw [hnil] at hbl
          exact identsOk_ne_nil false hbl
        obtain ⟨hvd, hvq⟩ := splitFirst_some_inv '+' v.data core bl hsf1
        exact matchVer_of_decomp v.data a b c [] ('+' :: bl)
          (by rw [hvd, hcore, hnums]; simp [List.append_assoc])
          hane hamem hbne hbmem hcne hcmem (Or.inl rfl)
          (Or.inr ⟨bl, rfl, hblne, identsOk_chars false bl hbl⟩)
    | some p =>
      obtain ⟨hcond, _⟩ := ite_some_inv h
      have hp : identsOk true p = true := by
        have hc2 := hcond
        rw [Bool.and_eq_true] at hc2
        exact hc2.1
      have hpne : p ≠ [] := by
        intro hnil
        rw [hnil] at hp
        exact identsOk_ne_nil true hp
      obtain ⟨hcore, hcq⟩ := splitFirst_some_inv '-' core nums p hsf2
      cases bld with
      | none =>
        obtain ⟨hvd, hvq⟩ := splitFirst_none_inv '+' v.data core hsf1
        exact matchVer_of_decomp v.data a b c ('-' :: p) []
          (by rw [hvd, hcore, hnums]; simp [List.append_assoc])
          hane hamem hbne hbmem hcne hcmem
          (Or.inr ⟨p, rfl, hpne, identsOk_chars true p hp⟩) (Or.inl rfl)
      | some bl =>
        have hbl : identsOk false bl = true := by
          have hc2 := hcond
          rw [Bool.and_eq_true] at hc2
          exact hc2.2
        have hblne : bl ≠ [] := by
          intro hnil
          rw [hnil] at hbl
          exact identsOk_ne_nil false hbl
        obtain ⟨hvd, hvq⟩ := splitFirst_some_inv '+' v.data core bl hsf1
        exact matchVer_of_decomp v.data a b c ('-' :: p) ('+' :: bl)
          (by rw [hvd, hcore, hnums]; simp [List.append_assoc])
          hane hamem hbne hbmem hcne hcmem
          (Or.inr ⟨p, rfl, hpne, identsOk_chars true p hp⟩)
          (Or.inr ⟨bl, rfl, hblne, identsOk_chars false bl hbl⟩)
  · cases h

theorem ciEq_c_not_v (c : Char) (h : ciEq c 'c' = true) : ciEq c 'v' = false := by
  rcases (ciEq_c_iff c).1 h with rfl | rfl <;> decide

theorem matchAt_head1 (c : Char) (s : List Char) (h1 : ciEq c 'c' = false)
    (h2 : ciEq c 'v' = false) : matchAt (c :: s) = none := by
  simp [matchAt, matchLead, matchKeyword, pLit, h1, h2]

theorem matchAt_head2 (c d : Char) (s : List Char)
    (h1 : (ciEq c 'c' && ciEq d 'o') = false) (h2 : (ciEq c 'v' && ciEq d 'a') = false) :
    matchAt (c :: d :: s) = none := by
  rcases hc : ciEq c 'c' with _ | _
  · rcases hv : ciEq c 'v' with _ | _
    · exact matchAt_head1 c _ hc hv
    · have hd : ciEq d 'a' = false := by
        rcases hda : ciEq d 'a' with _ | _
        · rfl
        · rw [hv, hda] at h2
          simp at h2
      simp [matchAt, matchLead, matchKeyword, pLit, hc, hv, hd]
  · have hd : ciEq d 'o' = false := by
      rcases hdo : ciEq d 'o' with _ | _
      · rfl
      · rw [hc, hdo] at h1
        simp at h1
    have hv : ciEq c 'v' = false := ciEq_c_not_v c hc
    simp [matchAt, matchLead, matchKeyword, pLit, hc, hd, hv]

theorem findMatch_cons_none (c : Char) (s : List Char) (h : matchAt (c :: s) = none) :
    findMatch (c :: s) = (findMatch s).map
      (fun q => (c :: q.1, q.2.1, q.2.2.1, q.2.2.2.1, q.2.2.2.2)) := by
  rcases hf : findMatch s with _ | ⟨p, l, sp, cp, r⟩ <;>
    unfold findMatch <;> rw [h] <;> simp only [] <;> rw [hf] <;> simp

theorem findMatch_safe_append (pfx : List Char) :
    safeScanList pfx = true → ∀ tail, findMatch (pfx ++ tail) = (findMatch tail).map
      (fun q => (pfx ++ q.1, q.2.1, q.2.2.1, q.2.2.2.1, q.2.2.2.2)) := by
  induction pfx with
  | nil =>
    intro _ tail
    rcases hf : findMatch tail with _ | ⟨p, l, sp, cp, r⟩ <;> simpa using hf
  | cons c cs ih =>
    intro hsafe tail
    cases cs with
    | nil =>
      have hc : (ciEq c 'c' || ciEq c 'v') = false := by
        simpa [safeScanList] using hsafe
      rw [Bool.or_eq_false_iff] at hc
      have hnone : matchAt (c :: tail) = none := matchAt_head1 c tail hc.1 hc.2
      have := findMatch_cons_none c tail hnone
      rw [show ([c] ++ tail : List Char) = c :: tail from rfl, this]
      rcases hf : findMatch tail with _ | ⟨p, l, sp, cp, r⟩ <;> simp
    | cons d ds =>
      have hsafe' : safeScanList (d :: ds) = true := by
        simp only [safeScanList, Bool.and_eq_true] at hsafe
        exact hsafe.2
      have hpair : (ciEq c 'c' && ciEq d 'o') = false ∧ (ciEq c 'v' && ciEq d 'a') = false := by
        simp only [safeScanList, Bool.and_eq_true, Bool.not_eq_true'] at hsafe
        exact ⟨hsafe.1.1, hsafe.1.2⟩
      have hnone : matchAt (c :: ((d :: ds) ++ tail)) = none :=
        matchAt_head2 c d (ds ++ tail) hpair.1 hpair.2
      have hstep := findMatch_cons_none c ((d :: ds) ++ tail) hnone
      rw [show ((c :: d :: ds) ++ tail : List Char) = c :: ((d :: ds) ++ tail) from rfl,
        hstep, ih hsafe' tail]
      rcases hf : findMatch tail with _ | ⟨p, l, sp, cp, r⟩ <;> simp

theorem fsRead_fsWrite (fs : Fs) (p c q : String) :
    fsRead (fsWrite fs p c) q = if q = p then some c else fsRead fs q := by
  induction fs with
  | nil =>
    by_cases h : q = p
    · simp [fsWrite, fsRead, h]
    · have h2 : ¬p = q := fun hh => h hh.symm
      simp [fsWrite, fsRead, h, h2]
  | cons e rest ih =>
    by_cases h1 : e.1 = p
    · by_cases h2 : q = p
      · simp [fsWrite, fsRead, h1, h2]
      · have h3 : ¬p = q := fun hh => h2 hh.symm
        have h4 : ¬e.1 = q := fun hh => h2 (by rw [← hh, h1])
        simp [fsWrite, fsRead, h1, h2, h3, h4]
    · by_cases h2 : e.1 = q
      · have h3 : ¬q = p := fun hh => h1 (by rw [h2, hh])
        simp [fsWrite, fsRead, h1, h2, h3]
      · simp [fsWrite, fsRead, h1, h2, ih]

set_option maxRecDepth 100000

theorem boiler_decomp (v : String) :
    (versionGoBoilerplate v).data = boilerHead ++ (boilerLead ++ (v.data ++ '"' :: ['\n'])) := by
  show (("package main\n\n// Version is the current version of the module.\nconst Version = \"" ++ v)
    ++ "\"\n").data = _
  rw [String.data_append, String.data_append]
  rw [show ("package main\n\n// Version is the current version of the module.\nconst Version = \""
    : String).data = boilerHead ++ boilerLead from by decide]
  rw [show ("\"\n" : String).data = ['"', '\n'] from by decide]
  simp [List.append_assoc]

/-- C2, counterexample to the claim as stated: for the package directory
`"d"` whose version.go exists but contains no matching Version assignment,
writing the valid version `"1.2.3"` with `update_version_go` and then
running `extract_version_from_version_go` does not return it (the write
leaves the file unchanged, so extraction still finds nothing). -/
theorem C2_roundtrip_counterexample :
    semverParse "1.2.3" = some ⟨1, 2, 3, "", ""⟩ ∧
    extract_version_from_version_go
      (update_version_go [("d/version.go", "package main\n")] "d" "1.2.3") "d" ≠
      some "1.2.3" := by
  constructor
  · decide
  · decide

/-- C2 (amended): for every valid semantic version string v, writing v via
the persisted-version writer (`update_version_go`) into a package
directory whose version.go either does not exist or contains a const/var
Version assignment matching the version pattern, and then running
version-resolution chain step 1 (`extract_version_from_version_go`) on
that directory, returns exactly v. -/
theorem C2_roundtrip_amended (fs : Fs) (dir v : String) (sv : SemVer)
    (hv : semverParse v = some sv)
    (hstate : fsRead fs (pathJoin dir "version.go") = none ∨
      ∃ c, fsRead fs (pathJoin dir "version.go") = some c ∧ findMatch c.data ≠ none) :
    extract_version_from_version_go (update_version_go fs dir v) dir = some v := by
  obtain ⟨hvrep, hvq⟩ := semverParse_ver_facts v sv hv
  rcases hstate with habs | ⟨c, hread, hfm⟩
  · have hupd : update_version_go fs dir v =
        fsWrite fs (pathJoin dir "version.go") (versionGoBoilerplate v) := by
      unfold update_version_go
      rw [habs]
    rw [hupd]
    unfold extract_version_from_version_go
    rw [fsRead_fsWrite, if_pos rfl]
    simp only []
    have hlead0 : matchLead boilerLead = some (boilerLead, []) := by decide
    obtain ⟨hdec, hrep, hq⟩ := matchLead_some_inv boilerLead boilerLead [] hlead0
    have hma : matchAt (boilerLead ++ (v.data ++ '"' :: ['\n'])) =
        some (boilerLead, v.data, v.data, ['\n']) :=
      matchAt_build boilerLead v.data v.data hrep hvrep ['\n']
    have hfm2 : findMatch ((versionGoBoilerplate v).data) =
        some (boilerHead ++ [], boilerLead, v.data, v.data, ['\n']) := by
      rw [boiler_decomp, findMatch_safe_append boilerHead (by decide),
        findMatch_of_matchAt _ boilerLead v.data v.data ['\n'] hma]
      rfl
    rw [hfm2]
  · rcases hfm2 : findMatch c.data with _ | ⟨pre, lead, span, cap, rest⟩
    · exact absurd hfm2 hfm
    have hupd : update_version_go fs dir v =
        fsWrite fs (pathJoin dir "version.go")
          (String.mk (pre ++ lead ++ v.data ++ '"' :: rest)) := by
      unfold update_version_go
      rw [hread]
      simp only []
      rw [hfm2]
    rw [hupd]
    unfold extract_version_from_version_go
    rw [fsRead_fsWrite, if_pos rfl]
    simp only []
    have harg : pre ++ lead ++ v.data ++ '"' :: rest =
        pre ++ (lead ++ (v.data ++ '"' :: rest)) := by
      simp [List.append_assoc]
    have hrepl := findMatch_replace c.data pre lead span cap rest v.data v.data hfm2 hvrep
    rw [harg, hrepl]

/-- C2 witness: the amended round trip at a concrete input (no version.go
yet, version `"1.2.3"`). -/
theorem C2_roundtrip_amended_witness :
    semverParse "1.2.3" = some ⟨1, 2, 3, "", ""⟩ ∧
    fsRead [] (pathJoin "d" "version.go") = none ∧
    extract_version_from_version_go (update_version_go [] "d" "1.2.3") "d" = some "1.2.3" :=
  ⟨by decide, rfl,
    C2_roundtrip_amended [] "d" "1.2.3" ⟨1, 2, 3, "", ""⟩ (by decide) (Or.inl rfl)⟩

/-- C1: version resolution follows the strict priority chain: a version.go
value wins and the git tag lookup is never consulted (the result is
independent of the git state); with no version.go value a matching git tag
wins; with neither the result is exactly `"0.0.0"`. -/
theorem C1_priority_chain (fs : Fs) (git : GitState) (root pkg mod : String) :
    (∀ v, extract_version_from_version_go fs (pathJoin root pkg) = some v →
      get_version fs git root pkg mod = .ok v ∧
      ∀ git2, get_version fs git2 root pkg mod = .ok v) ∧
    (extract_version_from_version_go fs (pathJoin root pkg) = none →
      (∀ w, extract_version_from_git_tag git mod = some w →
        get_version fs git root pkg mod = .ok w) ∧
      (extract_version_from_git_tag git mod = none →
        get_version fs git root pkg mod = .ok "0.0.0")) := by
  refine ⟨?_, ?_⟩
  · intro v hv
    refine ⟨?_, ?_⟩
    · unfold get_version
      rw [hv]
    · intro git2
      unfold get_version
      rw [hv]
  · intro hnone
    refine ⟨?_, ?_⟩
    · intro w hw
      unfold get_version
      rw [hnone, hw]
    · intro hgnone
      unfold get_version
      rw [hnone, hgnone]

/-- C1 witness: the three rungs of the chain at concrete states: a
version.go value shadows a tag; a tag alone is used; neither leaves the
default `"0.0.0"`. -/
theorem C1_priority_chain_witness :
    get_version [("r/p/version.go", "const Version = \"1.2.3\"\n")]
      (some (true, "v9.9.9\n")) "r" "p" "m" = .ok "1.2.3" ∧
    get_version [] (some (true, "v9.9.9\n")) "r" "p" "m" = .ok "9.9.9" ∧
    get_version [] none "r" "p" "m" = .ok "0.0.0" :=
  ⟨((C1_priority_chain [("r/p/version.go", "const Version = \"1.2.3\"\n")]
      (some (true, "v9.9.9\n")) "r" "p" "m").1 "1.2.3" (by decide)).1,
   ((C1_priority_chain [] (some (true, "v9.9.9\n")) "r" "p" "m").2 (by decide)).1
      "9.9.9" (by decide),
   ((C1_priority_chain [] none "r" "p" "m").2 (by decide)).2 (by decide)⟩

/-- C7: on a root with neither a go.work nor a go.mod file, `resolve_all`
returns the empty sequence and never an error. -/
theorem C7_missing_manifest (fs : Fs) (git : GitState) (root : String)
    (hwork : fsRead fs (pathJoin root "go.work") = none)
    (hmod : fsRead fs (pathJoin root "go.mod") = none) :
    resolve_all fs git root = .ok [] := by
  unfold resolve_all
  rw [hwork]
  simp only []
  rw [hmod]

/-- C7 witness: an empty repository resolves to the empty sequence. -/
theorem C7_missing_manifest_witness :
    fsRead [] (pathJoin "r" "go.work") = none ∧
    fsRead [] (pathJoin "r" "go.mod") = none ∧
    resolve_all [] none "r" = .ok [] :=
  ⟨rfl, rfl, C7_missing_manifest [] none "r" rfl rfl⟩

/-- C8: a failed git invocation or a non-success exit status yields "no
tag found" (`none`) rather than an error, and resolution continues to the
next fallback step: with no version.go value the chain still succeeds,
returning the default `"0.0.0"`. -/
theorem C8_git_failure_fallback (git : GitState) (mod : String)
    (hfail : git = none ∨ ∃ out, git = some (false, out)) :
    extract_version_from_git_tag git mod = none ∧
    ∀ fs root pkg, extract_version_from_version_go fs (pathJoin root pkg) = none →
      get_version fs git root pkg mod = .ok "0.0.0" := by
  have hnone : extract_version_from_git_tag git mod = none := by
    rcases hfail with rfl | ⟨out, rfl⟩
    · rfl
    · rfl
  refine ⟨hnone, ?_⟩
  intro fs root pkg hv
  unfold get_version
  rw [hv, hnone]

/-- C8 witness: both failure modes at concrete states, with the chain
falling through to the default version. -/
theorem C8_git_failure_fallback_witness :
    extract_version_from_git_tag none "m" = none ∧
    extract_version_from_git_tag (some (false, "v1.0.0\n")) "m" = none ∧
    get_version [] none "r" "p" "m" = .ok "0.0.0" :=
  ⟨(C8_git_failure_fallback none "m" (Or.inl rfl)).1,
   (C8_git_failure_fallback (some (false, "v1.0.0\n")) "m" (Or.inr ⟨"v1.0.0\n", rfl⟩)).1,
   (C8_git_failure_fallback none "m" (Or.inl rfl)).2 [] "r" "p" (by decide)⟩

theorem runCmdList_dry_run_executed (runCmd : CommandCfg → String → Except ResolveError Unit)
    (path : String) (cmds : List CommandCfg) :
    ∀ c ∈ (runCmdList runCmd true path cmds).2, c.dry_run = some true := by
  induction cmds with
  | nil =>
    intro c hc
    cases hc
  | cons c0 rest ih =>
    intro c hc
    rcases hov : c0.dry_run.getD false with _ | _
    · have hstep : runCmdList runCmd true path (c0 :: rest) =
          runCmdList runCmd true path rest := by
        conv_lhs => unfold runCmdList
        rw [hov]
        simp
      rw [hstep] at hc
      exact ih c hc
    · have hc0 : c0.dry_run = some true := by
        rcases hd : c0.dry_run with _ | b
        · rw [hd] at hov
          simp at hov
        · cases b
          · rw [hd] at hov
            simp at hov
          · rfl
      rcases hrun : runCmd c0 path with e | u
      · have hstep : runCmdList runCmd true path (c0 :: rest) = (.error e, [c0]) := by
          conv_lhs => unfold runCmdList
          rw [hov, hrun]
          simp
        rw [hstep] at hc
        simp only [] at hc
        rcases List.mem_cons.1 hc with rfl | hc'
        · exact hc0
        · cases hc'
      · cases u
        rcases hrec : runCmdList runCmd true path rest with ⟨res, ex⟩
        have hstep : runCmdList runCmd true path (c0 :: rest) = (res, c0 :: ex) := by
          conv_lhs => unfold runCmdList
          rw [hov, hrun, hrec]
          simp
        rw [hstep] at hc
        simp only [] at hc
        rcases List.mem_cons.1 hc with rfl | hc'
        · exact hc0
        · have := ih c
          rw [hrec] at this
          exact this hc'

/-- C5: under dry-run, `bump` returns success without touching the
filesystem, and `publish` executes no configured command except those
whose own dry-run override is explicitly `true` (every command actually
invoked carries `dry_run = some true`). -/
theorem C5_dry_run_suppression (ctx : Context) (fs : Fs) (root : String)
    (pkg : ResolvedPackage) (ver : SemVer)
    (runCmd : CommandCfg → String → Except ResolveError Unit) (rc : ResolverConfig)
    (hdry : ctx.dry_run = true) :
    bump ctx fs root pkg ver = .ok fs ∧
    ∀ c ∈ (publish runCmd pkg rc true).2, c.dry_run = some true := by
  constructor
  · unfold bump
    rw [hdry]
    simp
  · intro c hc
    unfold publish at hc
    rcases h1 : runCmdList runCmd true pkg.path rc.prepublish with ⟨res1, ex1⟩
    rw [h1] at hc
    cases res1 with
    | error e =>
      simp only [] at hc
      have := runCmdList_dry_run_executed runCmd pkg.path rc.prepublish c
      rw [h1] at this
      exact this hc
    | ok u =>
      cases u
      simp only [] at hc
      rcases h2 : runCmdList runCmd true pkg.path rc.publish with ⟨res2, ex2⟩
      rw [h2] at hc
      simp only [] at hc
      rcases List.mem_append.1 hc with hc' | hc'
      · have := runCmdList_dry_run_executed runCmd pkg.path rc.prepublish c
        rw [h1] at this
        exact this hc'
      · have := runCmdList_dry_run_executed runCmd pkg.path rc.publish c
        rw [h2] at this
        exact this hc'

/-- C5 witness: a concrete dry-run `bump` and `publish` where the only
executed commands are exactly the override-true commands. -/
theorem C5_dry_run_suppression_witness :
    bump ⟨true⟩ [] "r" ⟨"p", ⟨1, 0, 0, "", ""⟩, ".", false⟩ ⟨2, 0, 0, "", ""⟩ = .ok [] ∧
    ∀ c ∈ (publish (fun _ _ => .ok ()) ⟨"p", ⟨1, 0, 0, "", ""⟩, ".", false⟩
        ⟨[⟨"a", none, none⟩, ⟨"b", none, some true⟩], [⟨"d", none, some false⟩]⟩ true).2,
      c.dry_run = some true :=
  ⟨(C5_dry_run_suppression ⟨true⟩ [] "r" ⟨"p", ⟨1, 0, 0, "", ""⟩, ".", false⟩
      ⟨2, 0, 0, "", ""⟩ (fun _ _ => .ok ())
      ⟨[⟨"a", none, none⟩, ⟨"b", none, some true⟩], [⟨"d", none, some false⟩]⟩ rfl).1,
   (C5_dry_run_suppression ⟨true⟩ [] "r" ⟨"p", ⟨1, 0, 0, "", ""⟩, ".", false⟩
      ⟨2, 0, 0, "", ""⟩ (fun _ _ => .ok ())
      ⟨[⟨"a", none, none⟩, ⟨"b", none, some true⟩], [⟨"d", none, some false⟩]⟩ rfl).2⟩

/-- C10: when version.go exists but contains no const/var Version
assignment matching the version pattern, `update_version_go` leaves the
file byte-for-byte unchanged for any new version, and a non-dry-run
`bump` reports success while silently not persisting the new version. -/
theorem C10_silent_no_persist (fs : Fs) (root : String) (pkg : ResolvedPackage)
    (ver : SemVer) (ctx : Context) (c : String)
    (hdry : ctx.dry_run = false)
    (hread : fsRead fs (pathJoin (pathJoin root pkg.path) "version.go") = some c)
    (hnm : findMatch c.data = none) :
    (∀ v q, fsRead (update_version_go fs (pathJoin root pkg.path) v) q = fsRead fs q) ∧
    ∃ fs2, bump ctx fs root pkg ver = .ok fs2 ∧ ∀ q, fsRead fs2 q = fsRead fs q := by
  have hupd : ∀ v, update_version_go fs (pathJoin root pkg.path) v =
      fsWrite fs (pathJoin (pathJoin root pkg.path) "version.go") c := by
    intro v
    unfold update_version_go
    rw [hread]
    simp only []
    rw [hnm]
  have hsame : ∀ v q, fsRead (update_version_go fs (pathJoin root pkg.path) v) q =
      fsRead fs q := by
    intro v q
    rw [hupd v, fsRead_fsWrite]
    by_cases hq : q = pathJoin (pathJoin root pkg.path) "version.go"
    · rw [if_pos hq, hq, hread]
    · rw [if_neg hq]
  refine ⟨hsame, ?_⟩
  refine ⟨update_version_go fs (pathJoin root pkg.path) (semverToString ver), ?_, hsame _⟩
  unfold bump
  rw [hdry]
  simp

/-- C10 witness: a version.go with no matching assignment survives a
non-dry-run bump unchanged. -/
theorem C10_silent_no_persist_witness :
    fsRead [("r/p/version.go", "package main\n")]
      (pathJoin (pathJoin "r" "p") "version.go") = some "package main\n" ∧
    findMatch ("package main\n" : String).data = none ∧
    ∃ fs2, bump ⟨false⟩ [("r/p/version.go", "package main\n")] "r"
        ⟨"p", ⟨1, 0, 0, "", ""⟩, "p", false⟩ ⟨2, 0, 0, "", ""⟩ = .ok fs2 ∧
      ∀ q, fsRead fs2 q = fsRead [("r/p/version.go", "package main\n")] q :=
  ⟨by decide, by decide,
   (C10_silent_no_persist [("r/p/version.go", "package main\n")] "r"
      ⟨"p", ⟨1, 0, 0, "", ""⟩, "p", false⟩ ⟨2, 0, 0, "", ""⟩ ⟨false⟩ "package main\n"
      rfl (by decide) (by decide)).2⟩

theorem goModStep_comment (st : GoModSt) (l : List Char)
    (h : hasCommentMark (trimL l) = true) : goModStep st l = st := by
  simp [goModStep, h]

/-- C9: a comment-marked line (its trimmed text begins with `//`) inside a
manifest — in particular inside a parenthesized `require` block — is
skipped by the `parse_go_mod` line loop and contributes nothing to the
parse: the whole parse equals the parse of the manifest with that line
removed, so no spurious requirement is added for it. -/
theorem C9_comment_line_no_requirement (content : String) (path : String)
    (ls1 ls2 : List (List Char)) (l : List Char)
    (hsplit : rustLinesL content.data = ls1 ++ l :: ls2)
    (h : hasCommentMark (trimL l) = true) :
    parse_go_mod content path = goModLinesParse (ls1 ++ ls2) path := by
  have hfold : (ls1 ++ l :: ls2).foldl goModStep goModInit =
      (ls1 ++ ls2).foldl goModStep goModInit := by
    rw [List.foldl_append, List.foldl_cons, goModStep_comment _ _ h, ← List.foldl_append]
  unfold parse_go_mod
  rw [hsplit]
  simp only [goModLinesParse]
  rw [hfold]

theorem C9_comment_line_no_requirement_witness :
    hasCommentMark (trimL ("\t// indirect note").data) = true ∧
    parse_go_mod "module example.com/m\nrequire (\n\t// indirect note\n\tdep v1.0.0\n)\n" "p" =
      goModLinesParse
        [("module example.com/m").data, ("require (").data,
         ("\tdep v1.0.0").data, (")").data] "p" :=
  ⟨by decide,
   C9_comment_line_no_requirement _ "p"
     [("module example.com/m").data, ("require (").data]
     [("\tdep v1.0.0").data, (")").data]
     ("\t// indirect note").data
     (by decide) (by decide)⟩

theorem matchModule_ne_nil (t m : List Char) (h : matchModule t = some m) : m ≠ [] := by
  unfold matchModule at h
  split at h
  · split at h
    · split at h
      · have h' := h
        injection h' with h2
        subst h2
        exact List.cons_ne_nil _ _
      · have h' := h
        injection h' with h2
        subst h2
        assumption
    · cases h
  · cases h

theorem moduleLineValue_ne_nil (l m : List Char) (h : moduleLineValue l = some m) :
    m ≠ [] := by
  simp only [moduleLineValue] at h
  split at h
  · cases h
  · exact matchModule_ne_nil _ _ h

theorem moduleAccStep_none (l : List Char) : moduleAccStep none l = moduleLineValue l := by
  unfold moduleAccStep
  rcases hl : moduleLineValue l with _ | m'
  · rfl
  · rfl

theorem goModStep_module (st : GoModSt) (l : List Char) :
    (goModStep st l).module = (moduleLineValue l).getD st.module := by
  simp only [goModStep, moduleLineValue]
  by_cases hskip : ((trimL l).isEmpty || hasCommentMark (trimL l)) = true
  · rw [if_pos hskip, if_pos hskip]
    rfl
  · rw [if_neg hskip, if_neg hskip]
    rcases hm : matchModule (trimL l) with _ | m
    · simp only [Option.getD]
      repeat' split
      all_goals rfl
    · rfl

theorem moduleAcc_absorb (ls : List (List Char)) : ∀ acc : Option (List Char),
    ls.foldl moduleAccStep acc =
      match ls.foldl moduleAccStep none with
      | some m => some m
      | none => acc := by
  induction ls with
  | nil =>
    intro acc
    rfl
  | cons l ls ih =>
    intro acc
    rw [List.foldl_cons, List.foldl_cons, ih (moduleAccStep acc l),
        ih (moduleAccStep none l)]
    rcases hrest : ls.foldl moduleAccStep none with _ | m
    · simp only []
      rw [moduleAccStep_none]
      unfold moduleAccStep
      rcases hl : moduleLineValue l with _ | m'
      · rfl
      · rfl
    · rfl

theorem foldl_goModStep_module (ls : List (List Char)) : ∀ st : GoModSt,
    (ls.foldl goModStep st).module = (lastModuleCapture ls).getD st.module := by
  induction ls with
  | nil =>
    intro st
    rfl
  | cons l ls ih =>
    intro st
    rw [List.foldl_cons, ih (goModStep st l)]
    unfold lastModuleCapture
    rw [List.foldl_cons, moduleAcc_absorb ls (moduleAccStep none l), moduleAccStep_none]
    rcases hrest : ls.foldl moduleAccStep none with _ | m
    · simp only [Option.getD]
      rw [goModStep_module]
      rcases hl : moduleLineValue l with _ | m'
      · rfl
      · rfl
    · rfl

theorem lastModuleCapture_some_mem (ls : List (List Char)) (m : List Char)
    (h : lastModuleCapture ls = some m) : ∃ l ∈ ls, moduleLineValue l = some m := by
  induction ls with
  | nil => cases h
  | cons l ls ih =>
    unfold lastModuleCapture at h
    rw [List.foldl_cons, moduleAcc_absorb ls (moduleAccStep none l),
        moduleAccStep_none] at h
    rcases hrest : ls.foldl moduleAccStep none with _ | m'
    · rw [hrest] at h
      simp only [] at h
      exact ⟨l, List.mem_cons_self l ls, h⟩
    · rw [hrest] at h
      simp only [] at h
      injection h with h2
      subst h2
      have hm : lastModuleCapture ls = some m' := hrest
      rcases ih hm with ⟨l', hl', hv⟩
      exact ⟨l', List.mem_cons_of_mem l hl', hv⟩

/-- C6 (counterexample): on a manifest with no module directive,
`parse_go_mod` fails with the reason string
`"module directive not found in go.mod"`, not the claimed
`"module directive not found"`. -/
theorem C6_reason_counterexample :
    parse_go_mod "require x v1.0.0" "p" =
      .error (.parseError "p" "module directive not found in go.mod") ∧
    parse_go_mod "require x v1.0.0" "p" ≠
      .error (.parseError "p" "module directive not found") := by
  constructor
  · decide
  · decide

/-- C6 (amended): when no line of the manifest declares a module identity
(the last module capture is empty), `parse_go_mod` fails with a
`ParseError` whose reason is exactly
`"module directive not found in go.mod"`; otherwise it succeeds and the
parsed module identity is the last-declared capture (duplicates
overwrite, last wins). -/
theorem C6_module_directive (content : String) (path : String) :
    (lastModuleCapture (rustLinesL content.data) = none →
      parse_go_mod content path =
        .error (.parseError path "module directive not found in go.mod")) ∧
    ∀ m, lastModuleCapture (rustLinesL content.data) = some m →
      ∃ gm, parse_go_mod content path = .ok gm ∧ gm.module = String.mk m := by
  constructor
  · intro hnone
    unfold parse_go_mod
    simp only [goModLinesParse]
    have hmod := foldl_goModStep_module (rustLinesL content.data) goModInit
    rw [hnone] at hmod
    simp only [Option.getD] at hmod
    rw [hmod]
    rfl
  · intro m hsome
    have hmod := foldl_goModStep_module (rustLinesL content.data) goModInit
    rw [hsome] at hmod
    simp only [Option.getD] at hmod
    rcases lastModuleCapture_some_mem _ _ hsome with ⟨l, _, hv⟩
    have hne : m ≠ [] := moduleLineValue_ne_nil _ _ hv
    have hemp : m.isEmpty = false := by
      rcases m with _ | ⟨c, cs⟩
      · exact absurd rfl hne
      · rfl
    unfold parse_go_mod
    simp only [goModLinesParse]
    rw [hmod, hemp]
    exact ⟨_, rfl, rfl⟩

theorem C6_module_directive_witness :
    (∃ gm, parse_go_mod "module alpha\nmodule beta" "p" = .ok gm ∧
      gm.module = String.mk ['b', 'e', 't', 'a']) ∧
    parse_go_mod "go 1.21\n" "q" =
      .error (.parseError "q" "module directive not found in go.mod") :=
  ⟨(C6_module_directive "module alpha\nmodule beta" "p").2
      ['b', 'e', 't', 'a'] (by decide),
   (C6_module_directive "go 1.21\n" "q").1 (by decide)⟩

/-- C3: for a two-package `sort_packages` input where package A's parsed
manifest lists a requirement whose path equals package B's declared
module identity and B's manifest has no requirements, the returned
sequence places B before A. -/
theorem C3_dependency_ordering (fs : Fs) (root : String)
    (nameA nameB : String) (cfgA cfgB : PackageConfig) (cA cB : String)
    (ma mb : GoMod) (r : GoRequire)
    (hgoA : cfgA.resolver = ResolverType.go)
    (hgoB : cfgB.resolver = ResolverType.go)
    (hreadA : fsRead fs (pathJoin (pathJoin root cfgA.path) "go.mod") = some cA)
    (hparseA : parse_go_mod cA (pathJoin (pathJoin root cfgA.path) "go.mod") = .ok ma)
    (hreadB : fsRead fs (pathJoin (pathJoin root cfgB.path) "go.mod") = some cB)
    (hparseB : parse_go_mod cB (pathJoin (pathJoin root cfgB.path) "go.mod") = .ok mb)
    (hmem : r ∈ ma.require) (hpath : r.path = mb.module) (hreqB : mb.require = [])
    (hname : nameA ≠ nameB) (hmodne : ma.module ≠ mb.module) :
    sort_packages fs root [(nameA, cfgA), (nameB, cfgB)] =
      .ok [(nameB, cfgB), (nameA, cfgA)] := by
  have hfilt : ([(nameA, cfgA), (nameB, cfgB)].filter
      fun e => e.2.resolver = ResolverType.go) = [(nameA, cfgA), (nameB, cfgB)] := by
    simp [List.filter_cons, hgoA, hgoB]
  have hcache : buildCache fs root [] [(nameA, cfgA), (nameB, cfgB)] =
      .ok [(nameA, ma), (nameB, mb)] := by
    simp only [buildCache]
    rw [hreadA]
    simp only []
    rw [hparseA]
    simp only []
    rw [hreadB]
    simp only []
    rw [hparseB]
    simp only []
    simp [assocInsert, hname]
  have hcmp : goCmp [(nameA, ma), (nameB, mb)]
      [(ma.module, nameA), (mb.module, nameB)] (nameA, cfgA) (nameB, cfgB) = .gt := by
    unfold goCmp
    rw [if_pos ⟨hgoA, hgoB⟩]
    simp only []
    have hdep : (ma.require.any fun req =>
        match assocGetS req.path [(ma.module, nameA), (mb.module, nameB)] with
        | some dep_name => decide (dep_name = nameB)
        | none => false) = true := by
      rw [List.any_eq_true]
      refine ⟨r, hmem, ?_⟩
      rw [hpath]
      simp [assocGetS, hmodne]
    simp [assocGet, hdep]
  have hsort : sortByOrd (goCmp [(nameA, ma), (nameB, mb)]
      [(ma.module, nameA), (mb.module, nameB)]) [(nameA, cfgA), (nameB, cfgB)] =
      [(nameB, cfgB), (nameA, cfgA)] := by
    simp [sortByOrd, insertOrd, hcmp]
  unfold sort_packages
  rw [hfilt, hcache]
  simp only [List.map]
  rw [hsort]

theorem C3_dependency_ordering_witness :
    sort_packages
      [("r/a/go.mod", "module example.com/app\nrequire example.com/lib v1.0.0\n"),
       ("r/b/go.mod", "module example.com/lib\n")]
      "r"
      [("app", ⟨"a", .go, .semantic, []⟩), ("lib", ⟨"b", .go, .semantic, []⟩)] =
    .ok [("lib", ⟨"b", .go, .semantic, []⟩), ("app", ⟨"a", .go, .semantic, []⟩)] :=
  C3_dependency_ordering
    [("r/a/go.mod", "module example.com/app\nrequire example.com/lib v1.0.0\n"),
     ("r/b/go.mod", "module example.com/lib\n")]
    "r" "app" "lib" ⟨"a", .go, .semantic, []⟩ ⟨"b", .go, .semantic, []⟩
    "module example.com/app\nrequire example.com/lib v1.0.0\n"
    "module example.com/lib\n"
    ⟨"example.com/app", none, [⟨"example.com/lib", "v1.0.0"⟩]⟩
    ⟨"example.com/lib", none, []⟩
    ⟨"example.com/lib", "v1.0.0"⟩
    (by decide) (by decide) (by decide) (by decide) (by decide) (by decide)
    (by decide) (by decide) (by decide) (by decide) (by decide)

theorem resolve_ok_path (fs : Fs) (git : GitState) (root : String)
    (cfg : PackageConfig) (p : ResolvedPackage)
    (h : resolve fs git root cfg = .ok p) : p.path = cfg.path := by
  simp only [resolve] at h
  split at h
  · cases h
  · split at h
    · cases h
    · split at h
      · cases h
      · split at h
        · cases h
        · injection h with h2
          subst h2
          rfl

/-- C4: when `resolve_all` finds a workspace file whose use entries are
`"."`, `"./svcA"` and `"svcB"`, it resolves exactly three packages in
that order, whose paths are `"."` (the root member), `"svcA"` (leading
`"./"` stripped) and `"svcB"` (kept verbatim). -/
theorem C4_workspace_expansion (fs : Fs) (git : GitState) (root : String)
    (wc : String) (p1 p2 p3 : ResolvedPackage)
    (hwork : fsRead fs (pathJoin root "go.work") = some wc)
    (huse : (parse_go_work wc).use_dirs = [".", "./svcA", "svcB"])
    (h1 : resolve fs git root (goMemberConfig ".") = .ok p1)
    (h2 : resolve fs git root (goMemberConfig "svcA") = .ok p2)
    (h3 : resolve fs git root (goMemberConfig "svcB") = .ok p3) :
    resolve_all fs git root = .ok [p1, p2, p3] ∧
    p1.path = "." ∧ p2.path = "svcA" ∧ p3.path = "svcB" := by
  refine ⟨?_, resolve_ok_path _ _ _ _ _ h1, resolve_ok_path _ _ _ _ _ h2,
    resolve_ok_path _ _ _ _ _ h3⟩
  have e2 : trimDotSlash "./svcA" = "svcA" := by decide
  have e3 : trimDotSlash "svcB" = "svcB" := by decide
  simp only [resolve_all, hwork]
  rw [huse]
  simp [List.mapM, List.mapM.loop, h1, h2, h3, e2, e3]
  rfl

theorem C4_workspace_expansion_witness :
    resolve_all
      [("r/go.work", "use (\n\t.\n\t./svcA\n\tsvcB\n)\n"),
       ("r/go.mod", "module example.com/root\n"),
       ("r/version.go", "const Version = \"1.0.0\"\n"),
       ("r/svcA/go.mod", "module example.com/svcA\n"),
       ("r/svcA/version.go", "const Version = \"2.0.0\"\n"),
       ("r/svcB/go.mod", "module example.com/svcB\n"),
       ("r/svcB/version.go", "const Version = \"3.0.0\"\n")]
      none "r" =
      .ok [⟨"root", ⟨1, 0, 0, "", ""⟩, ".", false⟩,
           ⟨"svcA", ⟨2, 0, 0, "", ""⟩, "svcA", false⟩,
           ⟨"svcB", ⟨3, 0, 0, "", ""⟩, "svcB", false⟩] ∧
    (⟨"root", ⟨1, 0, 0, "", ""⟩, ".", false⟩ : ResolvedPackage).path = "." ∧
    (⟨"svcA", ⟨2, 0, 0, "", ""⟩, "svcA", false⟩ : ResolvedPackage).path = "svcA" ∧
    (⟨"svcB", ⟨3, 0, 0, "", ""⟩, "svcB", false⟩ : ResolvedPackage).path = "svcB" :=
  C4_workspace_expansion
    [("r/go.work", "use (\n\t.\n\t./svcA\n\tsvcB\n)\n"),
     ("r/go.mod", "module example.com/root\n"),
     ("r/version.go", "const Version = \"1.0.0\"\n"),
     ("r/svcA/go.mod", "module example.com/svcA\n"),
     ("r/svcA/version.go", "const Version = \"2.0.0\"\n"),
     ("r/svcB/go.mod", "module example.com/svcB\n"),
     ("r/svcB/version.go", "const Version = \"3.0.0\"\n")]
    none "r" "use (\n\t.\n\t./svcA\n\tsvcB\n)\n"
    ⟨"root", ⟨1, 0, 0, "", ""⟩, ".", false⟩
    ⟨"svcA", ⟨2, 0, 0, "", ""⟩, "svcA", false⟩
    ⟨"svcB", ⟨3, 0, 0, "", ""⟩, "svcB", false⟩
    (by decide) (by decide) (by decide) (by decide) (by decide)
